import Mathlib

/-!
# MazeShift: maze generation and hint path search

A shallow embedding of `Game::generateMaze`, `Game::findPath` and the player move of
`Game::handleEvents` from `src/main.cpp`, followed by the properties proved about them.

Conventions of the embedding
* `int` values are `Int`; no arithmetic in the modelled code can leave the range of a
  32-bit `int` for the sizes the program uses, and none of it wraps.
* `std::vector<std::vector<T>>` is `List (List T)`; every `v[y][x]` goes through
  `readAt` / `modifyAt`, which report `Fault.outOfRange` for an index outside the vector.
  Such an access is undefined behaviour in the source: the model stops at the first one
  and says nothing about what the program does after it, so `.error .outOfRange` means
  "the run reaches an out-of-range access", not "the program reports an error".
* `std::stack` is a list whose head is the top; `std::queue` is a list whose head is the
  front.
* the random engine is a stream `rng : Nat → Nat`; the `k`-th draw of
  `uniform_int_distribution(0, n - 1)` is `rng k % n`, so quantifying over `rng`
  quantifies over every sequence of random choices.
* `while` loops carry a fuel argument and report `Fault.fuel` when it runs out; the
  theorems show that the fuel supplied is always enough.
-/

namespace MazeShift

/-! ## Data model -/

/-- The type `sf::Vector2i`: a pair of `int` coordinates. -/
structure Vector2i where
  x : Int
  y : Int
deriving DecidableEq, Repr

/-- The class `Cell`: `walls0 .. walls3` are `walls[0] .. walls[3]` (Top, Right, Bottom,
Left), all standing initially. -/
structure Cell where
  visited : Bool := false
  walls0 : Bool := true
  walls1 : Bool := true
  walls2 : Bool := true
  walls3 : Bool := true
  isPath : Bool := false
deriving DecidableEq, Repr

/-- The ways in which a run of the modelled code can stop without a value. -/
inductive Fault where
  /-- The run reaches an index outside a vector, or `top()` of an empty stack: undefined
  behaviour in the source, after which the model says nothing. -/
  | outOfRange
  /-- The exception `std::length_error`, thrown by the construction of a vector asked to
  hold a negative number of elements. -/
  | lengthError
  /-- A loop that did not finish within its fuel. -/
  | fuel
deriving DecidableEq, Repr

instance {ε α : Type} [DecidableEq ε] [DecidableEq α] : DecidableEq (Except ε α)
  | .ok a, .ok b =>
    if h : a = b then isTrue (congrArg Except.ok h)
    else isFalse (fun e => h (Except.ok.inj e))
  | .error a, .error b =>
    if h : a = b then isTrue (congrArg Except.error h)
    else isFalse (fun e => h (Except.error.inj e))
  | .ok _, .error _ => isFalse (fun e => Except.noConfusion e)
  | .error _, .ok _ => isFalse (fun e => Except.noConfusion e)

/-- The read `c.walls[dir]`. -/
def Cell.walls (c : Cell) (dir : Nat) : Except Fault Bool :=
  match dir with
  | 0 => .ok c.walls0
  | 1 => .ok c.walls1
  | 2 => .ok c.walls2
  | 3 => .ok c.walls3
  | _ => .error .outOfRange

/-- The read `g[y][x]`. -/
def readAt {α : Type} (g : List (List α)) (y x : Int) : Except Fault α :=
  if 0 ≤ y ∧ 0 ≤ x then
    match g[y.toNat]? with
    | some row =>
      match row[x.toNat]? with
      | some c => .ok c
      | none => .error .outOfRange
    | none => .error .outOfRange
  else .error .outOfRange

/-- The write `g[y][x] = f (g[y][x])`. -/
def modifyAt {α : Type} (g : List (List α)) (y x : Int) (f : α → α) :
    Except Fault (List (List α)) :=
  if 0 ≤ y ∧ 0 ≤ x then
    match g[y.toNat]? with
    | some row =>
      match row[x.toNat]? with
      | some c => .ok (g.set y.toNat (row.set x.toNat (f c)))
      | none => .error .outOfRange
    | none => .error .outOfRange
  else .error .outOfRange

/-- The constructor `std::vector<std::vector<T>>(n, std::vector<T>(n, v))` with `n` an
`int`: a negative `n` converts to a size beyond `max_size()`. -/
def newGrid {α : Type} (n : Int) (v : α) : Except Fault (List (List α)) :=
  if n < 0 then .error .lengthError
  else .ok (List.replicate n.toNat (List.replicate n.toNat v))

/-- The cell reached from `p` in direction `dir` (0 Top, 1 Right, 2 Bottom, 3 Left), as
in the `switch` of `findPath` and the index arithmetic of `generateMaze`; any other
`dir` leaves `p` unchanged. -/
def moveDir (p : Vector2i) (dir : Nat) : Vector2i :=
  match dir with
  | 0 => ⟨p.x, p.y - 1⟩
  | 1 => ⟨p.x + 1, p.y⟩
  | 2 => ⟨p.x, p.y + 1⟩
  | 3 => ⟨p.x - 1, p.y⟩
  | _ => p

/-! ## `Game::generateMaze` -/

/-- The variables of the carving loop. `drawn` counts the values taken from the random
engine. `marked` is a history variable that the source does not have: the cells whose
`visited` flag was set and that were pushed as new, latest first. -/
structure GenState where
  maze : List (List Cell)
  stack : List Vector2i
  drawn : Nat
  marked : List Vector2i
deriving DecidableEq, Repr

/-- The test `!maze[y][x].visited`. -/
def unvisitedAt (maze : List (List Cell)) (y x : Int) : Except Fault Bool :=
  match readAt maze y x with
  | .ok c => .ok (!c.visited)
  | .error e => .error e

/-- One statement `if (guard && probe) directions.push_back(dir);` where `&&` evaluates
`probe` only when `guard` holds. -/
def pushBackIf (guard : Bool) (probe : Except Fault Bool) (dir : Nat)
    (directions : List Nat) : Except Fault (List Nat) :=
  if guard then
    match probe with
    | .ok b => .ok (if b then directions ++ [dir] else directions)
    | .error e => .error e
  else .ok directions

/-- Lines 91-100: the directions of `current` that lead to an unvisited cell. -/
def collectDirections (mazeSize : Int) (maze : List (List Cell)) (current : Vector2i) :
    Except Fault (List Nat) := do
  let directions : List Nat := []
  let directions ← pushBackIf (decide (current.y > 0))
    (unvisitedAt maze (current.y - 1) current.x) 0 directions
  let directions ← pushBackIf (decide (current.x < mazeSize - 1))
    (unvisitedAt maze current.y (current.x + 1)) 1 directions
  let directions ← pushBackIf (decide (current.y < mazeSize - 1))
    (unvisitedAt maze (current.y + 1) current.x) 2 directions
  let directions ← pushBackIf (decide (current.x > 0))
    (unvisitedAt maze current.y (current.x - 1)) 3 directions
  pure directions

/-- The assignment `c.walls[dir] = false`. -/
def Cell.clearWall (c : Cell) (dir : Nat) : Cell :=
  match dir with
  | 0 => { c with walls0 := false }
  | 1 => { c with walls1 := false }
  | 2 => { c with walls2 := false }
  | 3 => { c with walls3 := false }
  | _ => c

/-- One `case` of the `switch` at lines 110-135: clear wall `dir` of `current`, clear
wall `back` of `next`, mark `next` visited and push it. -/
def carveCase (s : GenState) (current : Vector2i) (dir back : Nat) (next : Vector2i) :
    Except Fault GenState := do
  let m1 ← modifyAt s.maze current.y current.x (fun c => c.clearWall dir)
  let m2 ← modifyAt m1 next.y next.x (fun c => c.clearWall back)
  let m3 ← modifyAt m2 next.y next.x (fun c => { c with visited := true })
  pure { s with maze := m3, stack := next :: s.stack, marked := next :: s.marked }

/-- Lines 105-135: draw `nextDir` from `directions` and run the matching `case`; a value
outside `0 .. 3` matches no `case`. -/
def carveStep (rng : Nat → Nat) (s : GenState) (current : Vector2i)
    (directions : List Nat) : Except Fault GenState :=
  match directions[rng s.drawn % directions.length]? with
  | none => .error .outOfRange
  | some nextDir =>
    let s1 := { s with drawn := s.drawn + 1 }
    match nextDir with
    | 0 => carveCase s1 current 0 2 ⟨current.x, current.y - 1⟩
    | 1 => carveCase s1 current 1 3 ⟨current.x + 1, current.y⟩
    | 2 => carveCase s1 current 2 0 ⟨current.x, current.y + 1⟩
    | 3 => carveCase s1 current 3 1 ⟨current.x - 1, current.y⟩
    | _ => .ok s1

/-- The body of the `while` loop, lines 88-136: `top`, `pop`, collect the directions,
and when there is one push `current` back and carve. -/
def loopBody (mazeSize : Int) (rng : Nat → Nat) (s : GenState) : Except Fault GenState :=
  match s.stack with
  | [] => .error .outOfRange
  | current :: rest =>
    match collectDirections mazeSize s.maze current with
    | .error e => .error e
    | .ok directions =>
      if directions.isEmpty then .ok { s with stack := rest }
      else carveStep rng { s with stack := current :: rest } current directions

/-- The loop `while (!stack.empty())`, lines 87-137. -/
def carveLoop (mazeSize : Int) (rng : Nat → Nat) : Nat → GenState → Except Fault GenState
  | fuel, s =>
    if s.stack.isEmpty then .ok s
    else
      match fuel with
      | 0 => .error .fuel
      | n + 1 =>
        match loopBody mazeSize rng s with
        | .error e => .error e
        | .ok s1 => carveLoop mazeSize rng n s1

/-- Lines 75-137: `generateMaze` up to the end of the carving loop. -/
def carveMaze (mazeSize : Int) (rng : Nat → Nat) : Except Fault GenState := do
  let maze ← newGrid mazeSize ({} : Cell)
  let current : Vector2i := ⟨0, 0⟩
  let maze ← modifyAt maze current.y current.x (fun c => { c with visited := true })
  carveLoop mazeSize rng (2 * mazeSize.toNat * mazeSize.toNat)
    { maze := maze, stack := [current], drawn := 0, marked := [current] }

/-- Lines 140-144: clear every `visited` flag. -/
def resetVisited (maze : List (List Cell)) : List (List Cell) :=
  maze.map (fun row => row.map (fun cell => { cell with visited := false }))

/-- The function `Game::generateMaze`, with `mazeSize` and the random choices as
arguments and the new value of `maze` as result. -/
def generateMaze (mazeSize : Int) (rng : Nat → Nat) : Except Fault (List (List Cell)) := do
  let s ← carveMaze mazeSize rng
  pure (resetVisited s.maze)

/-- The step of the specification (section 4.1, step 2), following its words: peek the
top cell as `current` without popping it; collect its unvisited neighbours; when there
is none pop `current`; otherwise choose one, remove the wall pair, mark the neighbour
visited and push it on top of `current`, which stays on the stack. -/
def peekStep (mazeSize : Int) (rng : Nat → Nat) (s : GenState) : Except Fault GenState :=
  match s.stack with
  | [] => .error .outOfRange
  | current :: _ =>
    match collectDirections mazeSize s.maze current with
    | .error e => .error e
    | .ok neighbours =>
      if neighbours = [] then .ok { s with stack := s.stack.tail }
      else carveStep rng s current neighbours

/-! ## `Game::findPath` -/

/-- The variables of the search loop. -/
structure BfsState where
  parent : List (List Vector2i)
  visited : List (List Bool)
  q : List Vector2i
  foundPath : Bool
deriving DecidableEq, Repr

/-- Lines 169-185: the body of `for (int dir = 0; dir < 4; ++dir)` for one `dir`. -/
def expandDir (mazeSize : Int) (maze : List (List Cell)) (current : Vector2i)
    (s : BfsState) (dir : Nat) : Except Fault BfsState := do
  let c ← readAt maze current.y current.x
  let w ← c.walls dir
  if !w then
    let next := moveDir current dir
    if next.x ≥ 0 ∧ next.x < mazeSize ∧ next.y ≥ 0 ∧ next.y < mazeSize then
      let seen ← readAt s.visited next.y next.x
      if !seen then
        let visited ← modifyAt s.visited next.y next.x (fun _ => true)
        let parent ← modifyAt s.parent next.y next.x (fun _ => current)
        pure { s with q := s.q ++ [next], visited := visited, parent := parent }
      else pure s
    else pure s
  else pure s

/-- The loop `for (int dir = 0; dir < 4; ++dir)`, lines 168-186. -/
def expandAll (mazeSize : Int) (maze : List (List Cell)) (current : Vector2i)
    (s : BfsState) : Except Fault BfsState := do
  let s ← expandDir mazeSize maze current s 0
  let s ← expandDir mazeSize maze current s 1
  let s ← expandDir mazeSize maze current s 2
  expandDir mazeSize maze current s 3

/-- The loop `while (!q.empty() && !foundPath)`, lines 158-187. -/
def bfsLoop (mazeSize : Int) (maze : List (List Cell)) (goal : Vector2i) :
    Nat → BfsState → Except Fault BfsState
  | fuel, s =>
    match s.q with
    | [] => .ok s
    | current :: rest =>
      if s.foundPath then .ok s
      else
        match fuel with
        | 0 => .error .fuel
        | n + 1 =>
          if current = goal then .ok { s with q := rest, foundPath := true }
          else
            match expandAll mazeSize maze current { s with q := rest } with
            | .error e => .error e
            | .ok s1 => bfsLoop mazeSize maze goal n s1

/-- The loop `while (current != playerPos)`, lines 192-195; `path` grows at its end. -/
def walkBack (parent : List (List Vector2i)) (playerPos : Vector2i) :
    Nat → Vector2i → List Vector2i → Except Fault (List Vector2i)
  | fuel, current, path =>
    if current = playerPos then .ok path
    else
      match fuel with
      | 0 => .error .fuel
      | n + 1 =>
        match readAt parent current.y current.x with
        | .error e => .error e
        | .ok up => walkBack parent playerPos n up (path ++ [current])

/-- The function `Game::findPath`, with `mazeSize`, `maze` and `playerPos` as
arguments. -/
def findPath (mazeSize : Int) (maze : List (List Cell)) (playerPos : Vector2i) :
    Except Fault (List Vector2i) := do
  let parent ← newGrid mazeSize (⟨-1, -1⟩ : Vector2i)
  let visited ← newGrid mazeSize false
  let q := [playerPos]
  let visited ← modifyAt visited playerPos.y playerPos.x (fun _ => true)
  let goal : Vector2i := ⟨mazeSize - 1, mazeSize - 1⟩
  let s ← bfsLoop mazeSize maze goal (mazeSize.toNat * mazeSize.toNat)
    { parent := parent, visited := visited, q := q, foundPath := false }
  if s.foundPath then
    let path ← walkBack s.parent playerPos (mazeSize.toNat * mazeSize.toNat) goal []
    pure path.reverse
  else pure []

/-! ## The player move of `Game::handleEvents` -/

/-- The enumeration `GameState`. -/
inductive GameState where
  | MENU
  | DIFFICULTY_SELECT
  | PLAYING
deriving DecidableEq, Repr

/-- The key codes that the `switch` at lines 264-282 tells apart. -/
inductive Key where
  | Up
  | Right
  | Down
  | Left
  | Escape
  | Other
deriving DecidableEq, Repr

/-- The part of `Game` that a key press reads and writes. -/
structure PlayState where
  state : GameState
  playerPos : Vector2i
deriving DecidableEq, Repr

/-- One arrow-key `case`: `if (!maze[playerPos.y][playerPos.x].walls[dir]) newPos = ...`. -/
def tryMove (maze : List (List Cell)) (playerPos : Vector2i) (dir : Nat) :
    Except Fault Vector2i := do
  let c ← readAt maze playerPos.y playerPos.x
  let w ← c.walls dir
  if !w then pure (moveDir playerPos dir) else pure playerPos

/-- Lines 262-289: the effect of a `KeyPressed` event. -/
def keyPressed (mazeSize : Int) (maze : List (List Cell)) (g : PlayState) (key : Key) :
    Except Fault PlayState :=
  if g.state = GameState.PLAYING then do
    let moved ← match key with
      | Key.Up => (tryMove maze g.playerPos 0).map (fun p => (p, g.state))
      | Key.Right => (tryMove maze g.playerPos 1).map (fun p => (p, g.state))
      | Key.Down => (tryMove maze g.playerPos 2).map (fun p => (p, g.state))
      | Key.Left => (tryMove maze g.playerPos 3).map (fun p => (p, g.state))
      | Key.Escape => pure (g.playerPos, GameState.MENU)
      | Key.Other => pure (g.playerPos, g.state)
    let playerPos := moved.1
    if playerPos.x = mazeSize - 1 ∧ playerPos.y = mazeSize - 1 then
      pure { state := GameState.MENU, playerPos := playerPos }
    else pure { state := moved.2, playerPos := playerPos }
  else pure g

/-- The effect of a sequence of `KeyPressed` events. -/
def keysPressed (mazeSize : Int) (maze : List (List Cell)) :
    PlayState → List Key → Except Fault PlayState
  | g, [] => .ok g
  | g, key :: keys =>
    match keyPressed mazeSize maze g key with
    | .error e => .error e
    | .ok g1 => keysPressed mazeSize maze g1 keys

/-- Line 251: the size chosen by the `i`-th difficulty button, from
`enum Difficulty { EASY = 15, MEDIUM = 20, HARD = 25 }`. -/
def difficultySize (i : Nat) : Int :=
  if i = 0 then 15 else if i = 1 then 20 else 25

/-! ## Vocabulary of the properties -/

/-- The cell `p` lies in the `n × n` grid. -/
def InBounds (n : Int) (p : Vector2i) : Prop :=
  0 ≤ p.x ∧ p.x < n ∧ 0 ≤ p.y ∧ p.y < n

instance (n : Int) (p : Vector2i) : Decidable (InBounds n p) :=
  inferInstanceAs (Decidable (0 ≤ p.x ∧ p.x < n ∧ 0 ≤ p.y ∧ p.y < n))

/-- The vector of vectors `g` has `n` rows of `n` entries. -/
def IsGrid {α : Type} (n : Int) (g : List (List α)) : Prop :=
  (g.length : Int) = n ∧ ∀ row ∈ g, (row.length : Int) = n

instance {α : Type} (n : Int) (g : List (List α)) : Decidable (IsGrid n g) :=
  inferInstanceAs (Decidable ((g.length : Int) = n ∧ ∀ row ∈ g, (row.length : Int) = n))

/-- The entry `g[p.y][p.x]`, or `d` when there is none. -/
def lookup {α : Type} (g : List (List α)) (p : Vector2i) (d : α) : α :=
  match readAt g p.y p.x with
  | .ok c => c
  | .error _ => d

/-- The cell `maze[p.y][p.x]`; outside the grid, a cell with all walls standing. -/
def cellAt (maze : List (List Cell)) (p : Vector2i) : Cell :=
  lookup maze p {}

/-- The flag `maze[p.y][p.x].walls[dir]` is `false`: no wall stands on side `dir` of
`p`. -/
def wallOpen (maze : List (List Cell)) (p : Vector2i) (dir : Nat) : Bool :=
  match (cellAt maze p).walls dir with
  | .ok w => !w
  | .error _ => false

/-- The direction opposite to `dir`: Top ↔ Bottom, Right ↔ Left. -/
def opposite (dir : Nat) : Nat :=
  (dir + 2) % 4

/-- A step that `findPath` takes: from the in-bounds cell `a`, in a direction in which
`a` has no wall, to the in-bounds cell `b`. -/
def Step (n : Int) (maze : List (List Cell)) (a b : Vector2i) : Prop :=
  InBounds n a ∧ InBounds n b ∧ ∃ dir, dir < 4 ∧ wallOpen maze a dir = true ∧ b = moveDir a dir

/-- A step with no wall on either side: `a` has no wall towards `b` and `b` has none
towards `a`. -/
def OpenBothWays (n : Int) (maze : List (List Cell)) (a b : Vector2i) : Prop :=
  InBounds n a ∧ InBounds n b ∧
    ∃ dir, dir < 4 ∧ b = moveDir a dir ∧ wallOpen maze a dir = true ∧
      wallOpen maze b (opposite dir) = true

instance (n : Int) (maze : List (List Cell)) (a b : Vector2i) :
    Decidable (OpenBothWays n maze a b) :=
  inferInstanceAs (Decidable (InBounds n a ∧ InBounds n b ∧
    ∃ dir, dir < 4 ∧ b = moveDir a dir ∧ wallOpen maze a dir = true ∧
      wallOpen maze b (opposite dir) = true))

/-- The cells of the `n × n` grid, row by row. -/
def cells (n : Int) : List Vector2i :=
  (List.range n.toNat ×ˢ List.range n.toNat).map
    (fun yx => (⟨(yx.2 : Int), (yx.1 : Int)⟩ : Vector2i))

/-- The number of edges of the passage graph: each pair of adjacent cells with the wall
between them removed is counted once, at its left cell (direction Right) or at its upper
cell (direction Bottom). -/
def edgeCount (n : Int) (maze : List (List Cell)) : Nat :=
  (cells n).countP (fun p => decide (OpenBothWays n maze p (moveDir p 1))) +
    (cells n).countP (fun p => decide (OpenBothWays n maze p (moveDir p 2)))

/-- Every cell of the grid is joined to every other by steps with no wall on either
side. -/
def Connected (n : Int) (maze : List (List Cell)) : Prop :=
  ∀ a b, InBounds n a → InBounds n b → Relation.ReflTransGen (OpenBothWays n maze) a b

/-- The invariant of the carving loop. -/
structure GenInv (n : Int) (s : GenState) : Prop where
  grid : IsGrid n s.maze
  stack_marked : ∀ p ∈ s.stack, p ∈ s.marked
  marked_inb : ∀ p ∈ s.marked, InBounds n p
  marked_iff : ∀ p, InBounds n p → ((cellAt s.maze p).visited = true ↔ p ∈ s.marked)
  nodup : s.marked.Nodup
  origin : (⟨0, 0⟩ : Vector2i) ∈ s.marked
  closed : ∀ p ∈ s.marked, p ∉ s.stack →
    ∀ dir, dir < 4 → InBounds n (moveDir p dir) → moveDir p dir ∈ s.marked
  walls : ∀ p dir, wallOpen s.maze p dir = true →
    p ∈ s.marked ∧ moveDir p dir ∈ s.marked ∧ wallOpen s.maze (moveDir p dir) (opposite dir) = true
  conn : ∀ p ∈ s.marked, Relation.ReflTransGen (OpenBothWays n s.maze) ⟨0, 0⟩ p
  edges : edgeCount n s.maze + 1 = s.marked.length
  drawn : s.drawn + 1 = s.marked.length

/-- The goal cell of `findPath`: `goal(mazeSize - 1, mazeSize - 1)`. -/
def goalOf (n : Int) : Vector2i :=
  ⟨n - 1, n - 1⟩

/-- The list `w` is a walk from `a` to `b`: starting at `a`, each cell of `w` is reached
from the one before it by a `Step`, and the last cell is `b` (`a` itself when `w` is
empty). -/
def Walk (n : Int) (maze : List (List Cell)) (a : Vector2i) (w : List Vector2i)
    (b : Vector2i) : Prop :=
  List.Chain (Step n maze) a w ∧ (a :: w).getLast? = some b

/-- The cell `b` can be reached from `a` by steps through directions in which the
current cell has no wall. -/
def Reachable (n : Int) (maze : List (List Cell)) (a b : Vector2i) : Prop :=
  Relation.ReflTransGen (Step n maze) a b

/-- The cell `v` is reached from `a` by exactly `k` steps. -/
inductive Reach (n : Int) (maze : List (List Cell)) (a : Vector2i) : Nat → Vector2i → Prop
  | zero : Reach n maze a 0 a
  | succ {k : Nat} {u v : Vector2i} : Reach n maze a k u → Step n maze u v →
      Reach n maze a (k + 1) v

/-- The number `k` is the shortest-path distance from `a` to `b`: some walk from `a` to
`b` has `k` steps and none has fewer. -/
def IsDistance (n : Int) (maze : List (List Cell)) (a b : Vector2i) (k : Nat) : Prop :=
  (∃ w, Walk n maze a w b ∧ w.length = k) ∧ ∀ w, Walk n maze a w b → k ≤ w.length

/-- The flag `visited[p.y][p.x]` of `findPath`. -/
def seenAt (visited : List (List Bool)) (p : Vector2i) : Bool :=
  lookup visited p false

/-- The entry `parent[p.y][p.x]` of `findPath`. -/
def parentAt (parent : List (List Vector2i)) (p : Vector2i) : Vector2i :=
  lookup parent p ⟨-1, -1⟩

/-- The invariant of the search loop. `done` lists the cells already expanded, `qq` is
the queue including the cell being expanded, and `d` is the depth at which each cell was
discovered. -/
structure BfsInv (n : Int) (maze : List (List Cell)) (start : Vector2i)
    (visited : List (List Bool)) (parent : List (List Vector2i))
    (done qq : List Vector2i) (d : Vector2i → Nat) : Prop where
  gridV : IsGrid n visited
  gridP : IsGrid n parent
  seen_iff : ∀ p, InBounds n p → (seenAt visited p = true ↔ p ∈ done ∨ p ∈ qq)
  inb : ∀ p, p ∈ done ∨ p ∈ qq → InBounds n p
  nodup : (done ++ qq).Nodup
  start_seen : start ∈ done ∨ start ∈ qq
  start_d : d start = 0
  par : ∀ p, p ∈ done ∨ p ∈ qq → p ≠ start →
    (parentAt parent p ∈ done ∨ parentAt parent p ∈ qq) ∧
      Step n maze (parentAt parent p) p ∧ d p = d (parentAt parent p) + 1
  sorted : qq.Pairwise (fun a b => d a ≤ d b)
  done_le : ∀ p ∈ done, ∀ v ∈ qq, d p ≤ d v
  span : ∀ v ∈ qq, ∀ w ∈ qq, d w ≤ d v + 1
  closed : ∀ u ∈ done, ∀ v, Step n maze u v → (v ∈ done ∨ v ∈ qq) ∧ d v ≤ d u + 1

/-- The directions below `k` of the cell `u` being expanded have been dealt with. -/
def Expanded (n : Int) (maze : List (List Cell)) (u : Vector2i) (k : Nat)
    (done qq : List Vector2i) (d : Vector2i → Nat) : Prop :=
  ∀ dir, dir < k → wallOpen maze u dir = true → InBounds n (moveDir u dir) →
    (moveDir u dir ∈ done ∨ moveDir u dir ∈ qq) ∧ d (moveDir u dir) ≤ d u + 1

/-- The wall flags of the grid agree across every pair of adjacent cells. -/
def WallsSymmetric (n : Int) (maze : List (List Cell)) : Prop :=
  ∀ a dir, dir < 4 → InBounds n a → InBounds n (moveDir a dir) →
    (wallOpen maze a dir = true ↔ wallOpen maze (moveDir a dir) (opposite dir) = true)

/-- A `2 × 2` grid whose wall flags are not symmetric: cell (0,0) has no wall on its
right, while its right neighbour (1,0) keeps the wall on its left and has no wall below;
all other walls stand. -/
def lopsidedMaze : List (List Cell) :=
  [[{ walls1 := false }, { walls2 := false }], [{}, {}]]

/-- A `2 × 2` grid with all walls standing: no cell is joined to another. -/
def walledMaze : List (List Cell) :=
  [[{}, {}], [{}, {}]]

/-! ## Reading and writing a vector of vectors -/

theorem readAt_of_inBounds {α : Type} {n : Int} {g : List (List α)} (hg : IsGrid n g)
    {p : Vector2i} (hp : InBounds n p) (d : α) : readAt g p.y p.x = .ok (lookup g p d) := by
  obtain ⟨hx0, hx1, hy0, hy1⟩ := hp
  obtain ⟨hlen, hrows⟩ := hg
  have hy : p.y.toNat < g.length := by omega
  unfold lookup readAt
  rw [if_pos ⟨hy0, hx0⟩]
  rw [List.getElem?_eq_getElem hy]
  have hr := hrows g[p.y.toNat] (List.getElem_mem hy)
  have hx : p.x.toNat < g[p.y.toNat].length := by omega
  simp only [List.getElem?_eq_getElem hx]

theorem inBounds_of_readAt {α : Type} {n : Int} {g : List (List α)} (hg : IsGrid n g)
    {y x : Int} {c : α} (h : readAt g y x = .ok c) : InBounds n ⟨x, y⟩ := by
  obtain ⟨hlen, hrows⟩ := hg
  unfold readAt at h
  split at h
  · rename_i hyx
    split at h
    · rename_i row hrow
      split at h
      · rename_i c1 hc
        have h1 := (List.getElem?_eq_some_iff.1 hrow)
        obtain ⟨hy, hrow1⟩ := h1
        obtain ⟨hx, _⟩ := List.getElem?_eq_some_iff.1 hc
        have hr := hrows row (hrow1 ▸ List.getElem_mem hy)
        refine ⟨hyx.2, ?_, hyx.1, ?_⟩ <;> simp only <;> omega
      · cases h
    · cases h
  · cases h

theorem modifyAt_spec {α : Type} {n : Int} {g g1 : List (List α)} (hg : IsGrid n g)
    {y x : Int} {f : α → α} (h : modifyAt g y x f = .ok g1) (d : α) :
    IsGrid n g1 ∧ InBounds n ⟨x, y⟩ ∧
      ∀ q, lookup g1 q d = if q = ⟨x, y⟩ then f (lookup g ⟨x, y⟩ d) else lookup g q d := by
  obtain ⟨hlen, hrows⟩ := hg
  unfold modifyAt at h
  split at h
  · rename_i hyx
    split at h
    · rename_i row hrow
      split at h
      · rename_i c1 hc
        obtain ⟨hy, hrow1⟩ := List.getElem?_eq_some_iff.1 hrow
        obtain ⟨hx, hc1⟩ := List.getElem?_eq_some_iff.1 hc
        have hr := hrows row (hrow1 ▸ List.getElem_mem hy)
        injection h with h
        subst h
        refine ⟨⟨by simpa using hlen, ?_⟩, ⟨hyx.2, by simp only; omega, hyx.1, by simp only; omega⟩, ?_⟩
        · intro r hr1
          rcases List.mem_or_eq_of_mem_set hr1 with h1 | h1
          · exact hrows r h1
          · subst h1; simpa using hr
        · intro q
          unfold lookup readAt
          by_cases hq : q = ⟨x, y⟩
          · subst hq
            simp only [if_pos hyx, hrow, hc, if_true]
            simp [hy, hx]
          · rw [if_neg hq]
            by_cases hq0 : 0 ≤ q.y ∧ 0 ≤ q.x
            · simp only [if_pos hq0]
              by_cases hqy : q.y = y
              · have hqx : q.x.toNat ≠ x.toNat := by
                  intro hh
                  apply hq
                  cases q
                  simp only [Vector2i.mk.injEq] at *
                  omega
                subst hqy
                simp [hy, hrow, List.getElem?_set_ne (Ne.symm hqx)]
              · have : y.toNat ≠ q.y.toNat := by omega
                simp [List.getElem?_set_ne this]
            · simp only [if_neg hq0]
      · cases h
    · cases h
  · cases h

theorem modifyAt_ok {α : Type} {n : Int} {g : List (List α)} (hg : IsGrid n g)
    {p : Vector2i} (hp : InBounds n p) (f : α → α) :
    ∃ g1, modifyAt g p.y p.x f = .ok g1 := by
  obtain ⟨hx0, hx1, hy0, hy1⟩ := hp
  obtain ⟨hlen, hrows⟩ := hg
  have hy : p.y.toNat < g.length := by omega
  unfold modifyAt
  rw [if_pos ⟨hy0, hx0⟩]
  rw [List.getElem?_eq_getElem hy]
  have hr := hrows g[p.y.toNat] (List.getElem_mem hy)
  have hx : p.x.toNat < g[p.y.toNat].length := by omega
  simp only [List.getElem?_eq_getElem hx]
  exact ⟨_, rfl⟩

theorem isGrid_newGrid {α : Type} {n : Int} {v : α} {g : List (List α)}
    (h : newGrid n v = .ok g) : IsGrid n g ∧ 0 ≤ n ∧ ∀ q, lookup g q v = v := by
  unfold newGrid at h
  split at h
  · cases h
  · rename_i hn
    injection h with h
    subst h
    refine ⟨⟨by simp; omega, ?_⟩, by omega, ?_⟩
    · intro r hr
      rw [List.eq_of_mem_replicate hr]
      simp; omega
    · intro q
      unfold lookup
      split
      · rename_i c hc
        unfold readAt at hc
        split at hc
        · split at hc
          · rename_i row hrow
            split at hc
            · rename_i c1 hc1
              injection hc with hc
              subst hc
              have h1 := List.getElem?_mem hrow
              rw [List.eq_of_mem_replicate h1] at hc1
              exact List.eq_of_mem_replicate (List.getElem?_mem hc1)
            · cases hc
          · cases hc
        · cases hc
      · rfl

/-! ## Cells, counting and the four directions -/

theorem mem_cells {n : Int} {p : Vector2i} : p ∈ cells n ↔ InBounds n p := by
  unfold cells InBounds
  simp only [List.mem_map, Prod.exists, List.mem_product, List.mem_range]
  constructor
  · rintro ⟨a, b, ⟨ha, hb⟩, rfl⟩
    simp only
    omega
  · rintro ⟨h1, h2, h3, h4⟩
    refine ⟨p.y.toNat, p.x.toNat, ⟨by omega, by omega⟩, ?_⟩
    cases p
    simp only [Vector2i.mk.injEq] at *
    omega

theorem nodup_cells (n : Int) : (cells n).Nodup := by
  unfold cells
  apply List.Nodup.map
  · rintro ⟨a, b⟩ ⟨c, d⟩ h
    simp only [Vector2i.mk.injEq] at h
    simp only [Prod.mk.injEq]
    omega
  · exact List.Nodup.product (List.nodup_range _) (List.nodup_range _)

theorem length_cells (n : Int) : (cells n).length = n.toNat * n.toNat := by
  unfold cells
  simp [List.length_product]

theorem length_le_of_marked {n : Int} {l : List Vector2i} (hnd : l.Nodup)
    (hin : ∀ p ∈ l, InBounds n p) : l.length ≤ n.toNat * n.toNat := by
  rw [← length_cells]
  apply List.Subperm.length_le
  apply List.subperm_of_subset hnd
  intro p hp
  exact mem_cells.2 (hin p hp)

theorem length_eq_of_marked {n : Int} {l : List Vector2i} (hnd : l.Nodup)
    (hin : ∀ p ∈ l, InBounds n p) (hall : ∀ p, InBounds n p → p ∈ l) :
    l.length = n.toNat * n.toNat := by
  apply le_antisymm (length_le_of_marked hnd hin)
  rw [← length_cells]
  apply List.Subperm.length_le
  apply List.subperm_of_subset (nodup_cells n)
  intro p hp
  exact hall p (mem_cells.1 hp)

theorem countP_flip {α : Type} (f g : α → Bool) (q : α) :
    ∀ l : List α, l.Nodup → q ∈ l → (∀ p ∈ l, p ≠ q → g p = f p) → f q = false →
      g q = true → l.countP g = l.countP f + 1
  | [], _, hq, _, _, _ => by cases hq
  | a :: l, hnd, hq, hsame, hf, hg => by
    rw [List.nodup_cons] at hnd
    by_cases ha : a = q
    · subst ha
      have : l.countP g = l.countP f := by
        apply List.countP_congr
        intro p hp
        have hne : p ≠ a := fun h => hnd.1 (h ▸ hp)
        rw [hsame p (List.mem_cons_of_mem _ hp) hne]
      simp [List.countP_cons, hf, hg, this]
    · have hq1 : q ∈ l := by
        rcases List.mem_cons.1 hq with h | h
        · exact absurd h.symm ha
        · exact h
      have ih := countP_flip f g q l hnd.2 hq1
        (fun p hp hne => hsame p (List.mem_cons_of_mem _ hp) hne) hf hg
      have hga : g a = f a := hsame a (List.mem_cons_self _ _) ha
      simp only [List.countP_cons, ih, hga]
      omega

theorem countP_same {α : Type} (f g : α → Bool) (l : List α)
    (hsame : ∀ p ∈ l, g p = f p) : l.countP g = l.countP f := by
  apply List.countP_congr
  intro p hp
  rw [hsame p hp]


theorem moveDir_ne {p : Vector2i} {dir : Nat} (h : dir < 4) : moveDir p dir ≠ p := by
  intro hh
  cases p
  have : dir = 0 ∨ dir = 1 ∨ dir = 2 ∨ dir = 3 := by omega
  rcases this with rfl | rfl | rfl | rfl <;>
    simp only [moveDir, Vector2i.mk.injEq] at hh <;> omega

theorem moveDir_inj {p : Vector2i} {d e : Nat} (hd : d < 4) (he : e < 4)
    (h : moveDir p d = moveDir p e) : d = e := by
  cases p
  have h1 : d = 0 ∨ d = 1 ∨ d = 2 ∨ d = 3 := by omega
  have h2 : e = 0 ∨ e = 1 ∨ e = 2 ∨ e = 3 := by omega
  rcases h1 with rfl | rfl | rfl | rfl <;> rcases h2 with rfl | rfl | rfl | rfl <;>
    simp only [moveDir, Vector2i.mk.injEq] at h <;> omega

theorem moveDir_opposite {p : Vector2i} {dir : Nat} (h : dir < 4) :
    moveDir (moveDir p dir) (opposite dir) = p := by
  cases p
  have : dir = 0 ∨ dir = 1 ∨ dir = 2 ∨ dir = 3 := by omega
  rcases this with rfl | rfl | rfl | rfl <;>
    simp [moveDir, opposite]

theorem opposite_lt {dir : Nat} : opposite dir < 4 := by
  unfold opposite; omega

theorem opposite_opposite {dir : Nat} (h : dir < 4) : opposite (opposite dir) = dir := by
  unfold opposite; omega

theorem wallOpen_lt {maze : List (List Cell)} {p : Vector2i} {dir : Nat}
    (h : wallOpen maze p dir = true) : dir < 4 := by
  unfold wallOpen Cell.walls at h
  split at h
  · rename_i w hw
    split at hw <;> first | omega | cases hw
  · cases h

theorem walls_clearWall (c : Cell) (dir e : Nat) (hd : dir < 4) :
    (c.clearWall dir).walls e = if e = dir then .ok false else c.walls e := by
  have h1 : dir = 0 ∨ dir = 1 ∨ dir = 2 ∨ dir = 3 := by omega
  by_cases he : e < 4
  · have h2 : e = 0 ∨ e = 1 ∨ e = 2 ∨ e = 3 := by omega
    rcases h1 with rfl | rfl | rfl | rfl <;> rcases h2 with rfl | rfl | rfl | rfl <;>
      simp [Cell.clearWall, Cell.walls]
  · have hne : e ≠ dir := by omega
    rw [if_neg hne]
    unfold Cell.walls
    split <;> first | omega | rfl

theorem visited_clearWall (c : Cell) (dir : Nat) : (c.clearWall dir).visited = c.visited := by
  unfold Cell.clearWall
  split <;> rfl

theorem cellAt_of_inBounds {n : Int} {maze : List (List Cell)} (hg : IsGrid n maze)
    {p : Vector2i} (hp : InBounds n p) : readAt maze p.y p.x = .ok (cellAt maze p) :=
  readAt_of_inBounds hg hp {}

/-- The three writes of one `case` of the `switch`. -/
theorem carve_writes {n : Int} {maze : List (List Cell)} (hg : IsGrid n maze)
    {current next : Vector2i} (hc : InBounds n current) (hn : InBounds n next)
    (hne : next ≠ current) (dir back : Nat) :
    ∃ m1 m2 m3, modifyAt maze current.y current.x (fun c => c.clearWall dir) = .ok m1 ∧
      modifyAt m1 next.y next.x (fun c => c.clearWall back) = .ok m2 ∧
      modifyAt m2 next.y next.x (fun c => { c with visited := true }) = .ok m3 ∧
      IsGrid n m3 ∧
      ∀ q, cellAt m3 q =
        if q = next then { (cellAt maze next).clearWall back with visited := true }
        else if q = current then (cellAt maze current).clearWall dir
        else cellAt maze q := by
  obtain ⟨m1, h1⟩ := modifyAt_ok hg hc (fun c => c.clearWall dir)
  obtain ⟨g1, -, e1⟩ := modifyAt_spec hg h1 ({} : Cell)
  obtain ⟨m2, h2⟩ := modifyAt_ok g1 hn (fun c => c.clearWall back)
  obtain ⟨g2, -, e2⟩ := modifyAt_spec g1 h2 ({} : Cell)
  obtain ⟨m3, h3⟩ := modifyAt_ok g2 hn (fun c : Cell => { c with visited := true })
  obtain ⟨g3, -, e3⟩ := modifyAt_spec g2 h3 ({} : Cell)
  refine ⟨m1, m2, m3, h1, h2, h3, g3, ?_⟩
  intro q
  have hcur : (⟨current.x, current.y⟩ : Vector2i) = current := rfl
  have hnext : (⟨next.x, next.y⟩ : Vector2i) = next := rfl
  rw [hcur] at e1
  rw [hnext] at e2 e3
  unfold cellAt
  rw [e3 q]
  by_cases hq : q = next
  · subst hq
    rw [if_pos rfl, if_pos rfl, e2, if_pos rfl, e1, if_neg hne]
  · rw [if_neg hq, if_neg hq, e2, if_neg hq, e1]

/-! ## Walls and passages -/

theorem openBothWays_moveDir {n : Int} {maze : List (List Cell)} {p : Vector2i} {dir : Nat}
    (hd : dir < 4) :
    OpenBothWays n maze p (moveDir p dir) ↔
      InBounds n p ∧ InBounds n (moveDir p dir) ∧ wallOpen maze p dir = true ∧
        wallOpen maze (moveDir p dir) (opposite dir) = true := by
  constructor
  · rintro ⟨h1, h2, e, he, heq, h3, h4⟩
    have : dir = e := moveDir_inj hd he heq
    subst this
    exact ⟨h1, h2, h3, h4⟩
  · rintro ⟨h1, h2, h3, h4⟩
    exact ⟨h1, h2, dir, hd, rfl, h3, h4⟩

theorem openBothWays_symm {n : Int} {maze : List (List Cell)} {a b : Vector2i}
    (h : OpenBothWays n maze a b) : OpenBothWays n maze b a := by
  obtain ⟨h1, h2, dir, hd, rfl, h3, h4⟩ := h
  refine ⟨h2, h1, opposite dir, opposite_lt, (moveDir_opposite hd).symm, h4, ?_⟩
  rw [opposite_opposite hd]
  exact h3

theorem step_of_openBothWays {n : Int} {maze : List (List Cell)} {a b : Vector2i}
    (h : OpenBothWays n maze a b) : Step n maze a b := by
  obtain ⟨h1, h2, dir, hd, e, h3, -⟩ := h
  exact ⟨h1, h2, dir, hd, h3, e⟩

/-- The wall flags after one `case` of the `switch`. -/
theorem wallOpen_carved {maze m3 : List (List Cell)} {current next : Vector2i}
    {dir back : Nat} (hd : dir < 4) (hb : back < 4) (hne : next ≠ current)
    (hcell : ∀ q, cellAt m3 q =
      if q = next then { (cellAt maze next).clearWall back with visited := true }
      else if q = current then (cellAt maze current).clearWall dir
      else cellAt maze q) (q : Vector2i) (e : Nat) :
    wallOpen m3 q e = true ↔
      wallOpen maze q e = true ∨ (q = current ∧ e = dir) ∨ (q = next ∧ e = back) := by
  unfold wallOpen
  rw [hcell q]
  by_cases h1 : q = next
  · subst h1
    rw [if_pos rfl]
    have : ∀ c : Cell, ({ c with visited := true } : Cell).walls e = c.walls e := by
      intro c; unfold Cell.walls; rfl
    rw [this, walls_clearWall _ _ _ hb]
    by_cases he : e = back
    · simp [he]
    · simp only [if_neg he, he, and_false, or_false]
      constructor
      · intro h; exact Or.inl h
      · rintro (h | ⟨h, -⟩)
        · exact h
        · exact absurd h hne
  · rw [if_neg h1]
    by_cases h2 : q = current
    · subst h2
      rw [if_pos rfl, walls_clearWall _ _ _ hd]
      by_cases he : e = dir
      · simp [he]
      · simp [he, h1]
    · rw [if_neg h2]
      simp [h1, h2]

theorem visited_carved {maze m3 : List (List Cell)} {current next : Vector2i}
    {dir back : Nat}
    (hcell : ∀ q, cellAt m3 q =
      if q = next then { (cellAt maze next).clearWall back with visited := true }
      else if q = current then (cellAt maze current).clearWall dir
      else cellAt maze q) (q : Vector2i) :
    (cellAt m3 q).visited = true ↔ (cellAt maze q).visited = true ∨ q = next := by
  rw [hcell q]
  by_cases h1 : q = next
  · simp [h1]
  · rw [if_neg h1]
    by_cases h2 : q = current
    · rw [if_pos h2, visited_clearWall, h2]
      simp [h1, ← h2]
    · rw [if_neg h2]
      simp [h1]

theorem opposite_ne {dir : Nat} : opposite dir ≠ dir := by
  unfold opposite; omega

/-- How the passages change in one `case` of the `switch`: exactly the wall pair between
`current` and the new cell goes. -/
theorem openBothWays_carved {n : Int} {s : GenState} (inv : GenInv n s)
    {m3 : List (List Cell)} {current : Vector2i} {dir : Nat}
    (hc : InBounds n current) (hd : dir < 4) (hn : InBounds n (moveDir current dir))
    (hcell : ∀ q, cellAt m3 q =
      if q = moveDir current dir then
        { (cellAt s.maze (moveDir current dir)).clearWall (opposite dir) with visited := true }
      else if q = current then (cellAt s.maze current).clearWall dir
      else cellAt s.maze q) (p : Vector2i) (e : Nat) (he : e < 4) :
    OpenBothWays n m3 p (moveDir p e) ↔
      OpenBothWays n s.maze p (moveDir p e) ∨ (p = current ∧ e = dir) ∨
        (p = moveDir current dir ∧ e = opposite dir) := by
  have hw := wallOpen_carved hd (@opposite_lt dir) (moveDir_ne hd) hcell
  rw [openBothWays_moveDir he, openBothWays_moveDir he]
  constructor
  · rintro ⟨h1, h2, h3, -⟩
    rcases (hw p e).1 h3 with h | h | h
    · exact Or.inl ⟨h1, h2, h, (inv.walls p e h).2.2⟩
    · exact Or.inr (Or.inl h)
    · exact Or.inr (Or.inr h)
  · rintro (⟨h1, h2, h3, h4⟩ | ⟨rfl, rfl⟩ | ⟨rfl, rfl⟩)
    · exact ⟨h1, h2, (hw _ _).2 (Or.inl h3), (hw _ _).2 (Or.inl h4)⟩
    · exact ⟨hc, hn, (hw _ _).2 (Or.inr (Or.inl ⟨rfl, rfl⟩)),
        (hw _ _).2 (Or.inr (Or.inr ⟨rfl, rfl⟩))⟩
    · refine ⟨hn, ?_, (hw _ _).2 (Or.inr (Or.inr ⟨rfl, rfl⟩)), ?_⟩
      · rw [moveDir_opposite hd]; exact hc
      · rw [moveDir_opposite hd, opposite_opposite hd]
        exact (hw _ _).2 (Or.inr (Or.inl ⟨rfl, rfl⟩))

theorem openBothWays_mono_carved {n : Int} {s : GenState}
    {m3 : List (List Cell)} {current : Vector2i} {dir : Nat} (hd : dir < 4)
    (hcell : ∀ q, cellAt m3 q =
      if q = moveDir current dir then
        { (cellAt s.maze (moveDir current dir)).clearWall (opposite dir) with visited := true }
      else if q = current then (cellAt s.maze current).clearWall dir
      else cellAt s.maze q) (a b : Vector2i) (h : OpenBothWays n s.maze a b) :
    OpenBothWays n m3 a b := by
  have hw := wallOpen_carved hd (@opposite_lt dir) (moveDir_ne hd) hcell
  obtain ⟨h1, h2, e, he, heq, h3, h4⟩ := h
  exact ⟨h1, h2, e, he, heq, (hw _ _).2 (Or.inl h3), (hw _ _).2 (Or.inl h4)⟩

/-- The number of passages counted in direction `e` grows by one exactly when `e` is the
carved direction or its opposite. -/
theorem countP_carved {n : Int} {s : GenState} (inv : GenInv n s)
    {m3 : List (List Cell)} {current : Vector2i} {dir : Nat}
    (hc : InBounds n current) (hd : dir < 4) (hn : InBounds n (moveDir current dir))
    (hnew : moveDir current dir ∉ s.marked)
    (hcell : ∀ q, cellAt m3 q =
      if q = moveDir current dir then
        { (cellAt s.maze (moveDir current dir)).clearWall (opposite dir) with visited := true }
      else if q = current then (cellAt s.maze current).clearWall dir
      else cellAt s.maze q) (e : Nat) (he : e < 4) :
    (cells n).countP (fun p => decide (OpenBothWays n m3 p (moveDir p e))) =
      (cells n).countP (fun p => decide (OpenBothWays n s.maze p (moveDir p e))) +
        (if e = dir ∨ e = opposite dir then 1 else 0) := by
  have hiff := openBothWays_carved inv hc hd hn hcell
  have hold : ∀ p e, e < 4 → OpenBothWays n s.maze p (moveDir p e) →
      p ≠ moveDir current dir ∧ moveDir p e ≠ moveDir current dir := by
    intro p e he h
    rw [openBothWays_moveDir he] at h
    obtain ⟨-, -, h3, h4⟩ := h
    constructor
    · intro hp; exact hnew (hp ▸ (inv.walls p e h3).1)
    · intro hp; exact hnew (hp ▸ (inv.walls p e h3).2.1)
  by_cases h1 : e = dir
  · subst h1
    rw [if_pos (Or.inl rfl)]
    apply countP_flip _ _ current _ (nodup_cells n) (mem_cells.2 hc)
    · intro p _ hne
      apply decide_eq_decide.2
      rw [hiff p e he]
      constructor
      · rintro (h | ⟨h, -⟩ | ⟨-, h⟩)
        · exact h
        · exact absurd h hne
        · exact absurd h.symm opposite_ne
      · exact Or.inl
    · apply decide_eq_false
      intro h
      exact (hold _ _ he h).2 rfl
    · apply decide_eq_true
      exact (hiff _ _ he).2 (Or.inr (Or.inl ⟨rfl, rfl⟩))
  · by_cases h2 : e = opposite dir
    · subst h2
      rw [if_pos (Or.inr rfl)]
      apply countP_flip _ _ (moveDir current dir) _ (nodup_cells n) (mem_cells.2 hn)
      · intro p _ hne
        apply decide_eq_decide.2
        rw [hiff p _ he]
        constructor
        · rintro (h | ⟨-, h⟩ | ⟨h, -⟩)
          · exact h
          · exact absurd h h1
          · exact absurd h hne
        · exact Or.inl
      · apply decide_eq_false
        intro h
        exact (hold _ _ he h).1 rfl
      · apply decide_eq_true
        exact (hiff _ _ he).2 (Or.inr (Or.inr ⟨rfl, rfl⟩))
    · rw [if_neg (by tauto), Nat.add_zero]
      apply countP_same
      intro p _
      apply decide_eq_decide.2
      rw [hiff p e he]
      constructor
      · rintro (h | ⟨-, h⟩ | ⟨-, h⟩)
        · exact h
        · exact absurd h h1
        · exact absurd h h2
      · exact Or.inl

theorem edgeCount_carved {n : Int} {s : GenState} (inv : GenInv n s)
    {m3 : List (List Cell)} {current : Vector2i} {dir : Nat}
    (hc : InBounds n current) (hd : dir < 4) (hn : InBounds n (moveDir current dir))
    (hnew : moveDir current dir ∉ s.marked)
    (hcell : ∀ q, cellAt m3 q =
      if q = moveDir current dir then
        { (cellAt s.maze (moveDir current dir)).clearWall (opposite dir) with visited := true }
      else if q = current then (cellAt s.maze current).clearWall dir
      else cellAt s.maze q) :
    edgeCount n m3 = edgeCount n s.maze + 1 := by
  unfold edgeCount
  rw [countP_carved inv hc hd hn hnew hcell 1 (by omega),
    countP_carved inv hc hd hn hnew hcell 2 (by omega)]
  have : dir = 0 ∨ dir = 1 ∨ dir = 2 ∨ dir = 3 := by omega
  rcases this with rfl | rfl | rfl | rfl <;> simp [opposite] <;> omega

/-! ## The invariant of the carving loop -/

/-- One `case` of the `switch` keeps the invariant. -/
theorem GenInv.carve {n : Int} {s : GenState} (inv : GenInv n s)
    {m3 : List (List Cell)} {current : Vector2i} {dir : Nat}
    (hcur : current ∈ s.stack) (hd : dir < 4) (hn : InBounds n (moveDir current dir))
    (hnew : moveDir current dir ∉ s.marked) (hg3 : IsGrid n m3)
    (hcell : ∀ q, cellAt m3 q =
      if q = moveDir current dir then
        { (cellAt s.maze (moveDir current dir)).clearWall (opposite dir) with visited := true }
      else if q = current then (cellAt s.maze current).clearWall dir
      else cellAt s.maze q) :
    GenInv n { maze := m3, stack := moveDir current dir :: s.stack, drawn := s.drawn + 1,
               marked := moveDir current dir :: s.marked } := by
  have hcm : current ∈ s.marked := inv.stack_marked _ hcur
  have hc : InBounds n current := inv.marked_inb _ hcm
  have hw := wallOpen_carved hd (@opposite_lt dir) (moveDir_ne hd) hcell
  have hmono := openBothWays_mono_carved (n := n) hd hcell
  refine ⟨hg3, ?_, ?_, ?_, ?_, ?_, ?_, ?_, ?_, ?_, ?_⟩
  · intro p hp
    rcases List.mem_cons.1 hp with h | h
    · exact h ▸ List.mem_cons_self _ _
    · exact List.mem_cons_of_mem _ (inv.stack_marked _ h)
  · intro p hp
    rcases List.mem_cons.1 hp with h | h
    · exact h ▸ hn
    · exact inv.marked_inb _ h
  · intro p hp
    simp only
    rw [visited_carved hcell p, inv.marked_iff p hp, List.mem_cons]
    tauto
  · exact List.nodup_cons.2 ⟨hnew, inv.nodup⟩
  · exact List.mem_cons_of_mem _ inv.origin
  · intro p hp hps e he hin
    simp only [List.mem_cons, not_or] at hps
    rcases List.mem_cons.1 hp with h | h
    · exact absurd h hps.1
    · exact List.mem_cons_of_mem _ (inv.closed p h hps.2 e he hin)
  · intro p e hpe
    simp only at hpe ⊢
    rcases (hw p e).1 hpe with h | ⟨rfl, rfl⟩ | ⟨rfl, rfl⟩
    · obtain ⟨h1, h2, h3⟩ := inv.walls p e h
      exact ⟨List.mem_cons_of_mem _ h1, List.mem_cons_of_mem _ h2, (hw _ _).2 (Or.inl h3)⟩
    · exact ⟨List.mem_cons_of_mem _ hcm, List.mem_cons_self _ _,
        (hw _ _).2 (Or.inr (Or.inr ⟨rfl, rfl⟩))⟩
    · refine ⟨List.mem_cons_self _ _, ?_, ?_⟩
      · rw [moveDir_opposite hd]; exact List.mem_cons_of_mem _ hcm
      · rw [moveDir_opposite hd, opposite_opposite hd]
        exact (hw _ _).2 (Or.inr (Or.inl ⟨rfl, rfl⟩))
  · intro p hp
    simp only
    rcases List.mem_cons.1 hp with h | h
    · subst h
      apply Relation.ReflTransGen.tail (Relation.ReflTransGen.mono hmono (inv.conn _ hcm))
      exact (openBothWays_carved inv hc hd hn hcell _ _ hd).2 (Or.inr (Or.inl ⟨rfl, rfl⟩))
    · exact Relation.ReflTransGen.mono hmono (inv.conn _ h)
  · simp only [List.length_cons]
    rw [edgeCount_carved inv hc hd hn hnew hcell, inv.edges]
  · simp only [List.length_cons]
    rw [inv.drawn]

/-- Popping a cell whose neighbours are all marked keeps the invariant. -/
theorem GenInv.pop {n : Int} {s : GenState} (inv : GenInv n s)
    {current : Vector2i} {rest : List Vector2i} (hs : s.stack = current :: rest)
    (hdone : ∀ dir, dir < 4 → InBounds n (moveDir current dir) →
      moveDir current dir ∈ s.marked) :
    GenInv n { s with stack := rest } := by
  refine ⟨inv.grid, ?_, inv.marked_inb, inv.marked_iff, inv.nodup, inv.origin, ?_,
    inv.walls, inv.conn, inv.edges, inv.drawn⟩
  · intro p hp
    exact inv.stack_marked p (hs ▸ List.mem_cons_of_mem _ hp)
  · intro p hp hps e he hin
    simp only at hps
    by_cases h : p = current
    · subst h; exact hdone e he hin
    · apply inv.closed p hp _ e he hin
      rw [hs]
      simp only [List.mem_cons, not_or]
      exact ⟨h, hps⟩

theorem pushBackIf_unvisited {n : Int} {maze : List (List Cell)} (hg : IsGrid n maze)
    (guard : Bool) (q : Vector2i) (hq : guard = true → InBounds n q) (dir : Nat)
    (l : List Nat) :
    pushBackIf guard (unvisitedAt maze q.y q.x) dir l =
      .ok (l ++ if guard && !(cellAt maze q).visited then [dir] else []) := by
  unfold pushBackIf
  cases guard
  · simp
  · simp only [if_true, Bool.true_and]
    unfold unvisitedAt
    rw [cellAt_of_inBounds hg (hq rfl)]
    simp only
    split <;> simp

/-- The directions collected for an in-bounds `current` are those that lead to an
in-bounds cell whose `visited` flag is not set. -/
theorem collectDirections_spec {n : Int} {maze : List (List Cell)} (hg : IsGrid n maze)
    {current : Vector2i} (hc : InBounds n current) :
    ∃ dirs, collectDirections n maze current = .ok dirs ∧
      ∀ d, d ∈ dirs ↔ d < 4 ∧ InBounds n (moveDir current d) ∧
        (cellAt maze (moveDir current d)).visited = false := by
  obtain ⟨hx0, hx1, hy0, hy1⟩ := hc
  have h0 := pushBackIf_unvisited hg (decide (current.y > 0)) (moveDir current 0)
    (by intro h; have := of_decide_eq_true h; simp only [moveDir, InBounds]; omega) 0
  have h1 := pushBackIf_unvisited hg (decide (current.x < n - 1)) (moveDir current 1)
    (by intro h; have := of_decide_eq_true h; simp only [moveDir, InBounds]; omega) 1
  have h2 := pushBackIf_unvisited hg (decide (current.y < n - 1)) (moveDir current 2)
    (by intro h; have := of_decide_eq_true h; simp only [moveDir, InBounds]; omega) 2
  have h3 := pushBackIf_unvisited hg (decide (current.x > 0)) (moveDir current 3)
    (by intro h; have := of_decide_eq_true h; simp only [moveDir, InBounds]; omega) 3
  simp only [moveDir] at h0 h1 h2 h3
  unfold collectDirections
  simp only [bind, Except.bind, pure, Except.pure, h0, h1, h2, h3]
  refine ⟨_, rfl, ?_⟩
  intro d
  have e0 : InBounds n (moveDir current 0) ↔ current.y > 0 := by
    simp only [moveDir, InBounds]; omega
  have e1 : InBounds n (moveDir current 1) ↔ current.x < n - 1 := by
    simp only [moveDir, InBounds]; omega
  have e2 : InBounds n (moveDir current 2) ↔ current.y < n - 1 := by
    simp only [moveDir, InBounds]; omega
  have e3 : InBounds n (moveDir current 3) ↔ current.x > 0 := by
    simp only [moveDir, InBounds]; omega
  simp only [List.nil_append, List.mem_append, Bool.and_eq_true, decide_eq_true_eq,
    Bool.not_eq_true', ← e0, ← e1, ← e2, ← e3]
  constructor
  · rintro (((h | h) | h) | h) <;> split at h <;> simp only [List.mem_singleton,
      List.not_mem_nil] at h
    all_goals (subst h; rename_i hh; exact ⟨by omega, hh⟩)
  · rintro ⟨hd, hin, hv⟩
    have : d = 0 ∨ d = 1 ∨ d = 2 ∨ d = 3 := by omega
    rcases this with rfl | rfl | rfl | rfl
    · left; left; left; rw [if_pos ⟨hin, hv⟩]; simp
    · left; left; right; rw [if_pos ⟨hin, hv⟩]; simp
    · left; right; rw [if_pos ⟨hin, hv⟩]; simp
    · right; rw [if_pos ⟨hin, hv⟩]; simp

theorem carveCase_spec {n : Int} {s : GenState} (inv : GenInv n s) {current : Vector2i}
    {dir : Nat} (hcur : current ∈ s.stack) (hd : dir < 4)
    (hn : InBounds n (moveDir current dir)) (hnew : moveDir current dir ∉ s.marked) :
    ∃ s1, carveCase { s with drawn := s.drawn + 1 } current dir (opposite dir)
        (moveDir current dir) = .ok s1 ∧ GenInv n s1 ∧
      s1.stack = moveDir current dir :: s.stack ∧
      s1.marked = moveDir current dir :: s.marked := by
  have hc : InBounds n current := inv.marked_inb _ (inv.stack_marked _ hcur)
  obtain ⟨m1, m2, m3, h1, h2, h3, hg3, hcell⟩ :=
    carve_writes inv.grid hc hn (moveDir_ne hd) dir (opposite dir)
  refine ⟨_, ?_, inv.carve hcur hd hn hnew hg3 hcell, rfl, rfl⟩
  unfold carveCase
  simp only [bind, Except.bind, pure, Except.pure, h1, h2, h3]

theorem carveStep_spec {n : Int} {s : GenState} (inv : GenInv n s) (rng : Nat → Nat)
    {current : Vector2i} (hcur : current ∈ s.stack) {dirs : List Nat} (hne : dirs ≠ [])
    (hdirs : ∀ d, d ∈ dirs → d < 4 ∧ InBounds n (moveDir current d) ∧
      moveDir current d ∉ s.marked) :
    ∃ s1, carveStep rng s current dirs = .ok s1 ∧ GenInv n s1 ∧
      s1.stack.length = s.stack.length + 1 ∧ s1.marked.length = s.marked.length + 1 := by
  have hlen : 0 < dirs.length := List.length_pos.2 hne
  have hi : rng s.drawn % dirs.length < dirs.length := Nat.mod_lt _ hlen
  obtain ⟨hd, hn, hnew⟩ := hdirs _ (List.getElem_mem hi)
  obtain ⟨s1, h1, inv1, hs, hm⟩ := carveCase_spec inv hcur hd hn hnew
  refine ⟨s1, ?_, inv1, by rw [hs]; rfl, by rw [hm]; rfl⟩
  unfold carveStep
  rw [List.getElem?_eq_getElem hi]
  simp only
  generalize dirs[rng s.drawn % dirs.length] = d at hd h1
  have : d = 0 ∨ d = 1 ∨ d = 2 ∨ d = 3 := by omega
  rcases this with rfl | rfl | rfl | rfl <;> exact h1

/-- One iteration of the carving loop keeps the invariant, and either pops a cell or
marks and pushes a new one. -/
theorem loopBody_spec {n : Int} {s : GenState} (inv : GenInv n s) (rng : Nat → Nat)
    (hne : s.stack ≠ []) :
    ∃ s1, loopBody n rng s = .ok s1 ∧ GenInv n s1 ∧
      ((s1.marked = s.marked ∧ s1.stack.length + 1 = s.stack.length) ∨
        (s1.marked.length = s.marked.length + 1 ∧
          s1.stack.length = s.stack.length + 1)) := by
  unfold loopBody
  match hs : s.stack with
  | [] => exact absurd hs hne
  | current :: rest =>
    have hcur : current ∈ s.stack := hs ▸ List.mem_cons_self _ _
    have hc : InBounds n current := inv.marked_inb _ (inv.stack_marked _ hcur)
    obtain ⟨dirs, hdirs, hmem⟩ := collectDirections_spec inv.grid hc
    simp only [hdirs]
    have hsame : ({ s with stack := current :: rest } : GenState) = s := by
      cases s; simp only at hs; simp [hs]
    by_cases he : dirs = []
    · subst he
      simp only [List.isEmpty_nil, if_true]
      refine ⟨_, rfl, inv.pop hs ?_, Or.inl ⟨rfl, ?_⟩⟩
      · intro d hd hin
        by_contra hnot
        have hv : (cellAt s.maze (moveDir current d)).visited = false := by
          cases h : (cellAt s.maze (moveDir current d)).visited
          · rfl
          · exact absurd ((inv.marked_iff _ hin).1 h) hnot
        have := (hmem d).2 ⟨hd, hin, hv⟩
        cases this
      · simp
    · have hemp : dirs.isEmpty = false := by
        cases dirs
        · exact absurd rfl he
        · rfl
      simp only [hemp, Bool.false_eq_true, if_false]
      rw [hsame]
      have hd2 : ∀ d, d ∈ dirs → d < 4 ∧ InBounds n (moveDir current d) ∧
          moveDir current d ∉ s.marked := by
        intro d hd
        obtain ⟨h1, h2, h3⟩ := (hmem d).1 hd
        refine ⟨h1, h2, fun hm => ?_⟩
        rw [(inv.marked_iff _ h2).2 hm] at h3
        cases h3
      obtain ⟨s1, h1, inv1, hl, hm⟩ := carveStep_spec inv rng hcur he hd2
      exact ⟨s1, h1, inv1, Or.inr ⟨hm, by rw [hl, hs]⟩⟩

/-- The carving loop ends with an empty stack whenever the fuel covers two iterations
for every cell not yet marked and one for every cell on the stack. -/
theorem carveLoop_spec {n : Int} (rng : Nat → Nat) :
    ∀ (fuel : Nat) (s : GenState), GenInv n s →
      2 * (n.toNat * n.toNat - s.marked.length) + s.stack.length ≤ fuel →
      ∃ s1, carveLoop n rng fuel s = .ok s1 ∧ GenInv n s1 ∧ s1.stack = []
  | fuel, s, inv, hfuel => by
    unfold carveLoop
    by_cases he : s.stack = []
    · simp only [he, List.isEmpty_nil, if_true]
      exact ⟨s, rfl, inv, he⟩
    · have hemp : s.stack.isEmpty = false := by
        cases h : s.stack
        · exact absurd h he
        · rfl
      simp only [hemp, Bool.false_eq_true, if_false]
      have hpos : 0 < s.stack.length := List.length_pos.2 he
      match fuel with
      | 0 => omega
      | k + 1 =>
        obtain ⟨s1, h1, inv1, hprog⟩ := loopBody_spec inv rng he
        simp only [h1]
        have hle := length_le_of_marked inv1.nodup inv1.marked_inb
        apply carveLoop_spec rng k s1 inv1
        rcases hprog with ⟨hm, hl⟩ | ⟨hm, hl⟩
        · rw [hm]; omega
        · omega

/-! ## Termination of the carving loop -/

theorem wallOpen_of_walls_eq {maze maze1 : List (List Cell)}
    (h : ∀ q e, (cellAt maze1 q).walls e = (cellAt maze q).walls e) (q : Vector2i) (e : Nat) :
    wallOpen maze1 q e = wallOpen maze q e := by
  unfold wallOpen
  rw [h]

theorem openBothWays_congr {n : Int} {maze maze1 : List (List Cell)}
    (h : ∀ q e, wallOpen maze1 q e = wallOpen maze q e) (a b : Vector2i) :
    OpenBothWays n maze1 a b ↔ OpenBothWays n maze a b := by
  unfold OpenBothWays
  simp only [h]

theorem edgeCount_congr {n : Int} {maze maze1 : List (List Cell)}
    (h : ∀ q e, wallOpen maze1 q e = wallOpen maze q e) :
    edgeCount n maze1 = edgeCount n maze := by
  unfold edgeCount
  simp only [openBothWays_congr h]

theorem cellAt_resetVisited (maze : List (List Cell)) (q : Vector2i) :
    cellAt (resetVisited maze) q = { cellAt maze q with visited := false } := by
  unfold cellAt lookup readAt resetVisited
  by_cases h : 0 ≤ q.y ∧ 0 ≤ q.x
  · simp only [if_pos h, List.getElem?_map]
    cases maze[q.y.toNat]? with
    | none => rfl
    | some row =>
      simp only [Option.map_some', List.getElem?_map]
      cases row[q.x.toNat]? with
      | none => rfl
      | some c => rfl
  · simp only [if_neg h]

theorem isGrid_resetVisited {n : Int} {maze : List (List Cell)} (h : IsGrid n maze) :
    IsGrid n (resetVisited maze) := by
  obtain ⟨h1, h2⟩ := h
  unfold resetVisited
  refine ⟨by simpa using h1, ?_⟩
  intro row hrow
  obtain ⟨r, hr, rfl⟩ := List.mem_map.1 hrow
  simpa using h2 r hr

theorem wallOpen_resetVisited (maze : List (List Cell)) (q : Vector2i) (e : Nat) :
    wallOpen (resetVisited maze) q e = wallOpen maze q e := by
  apply wallOpen_of_walls_eq
  intro q e
  rw [cellAt_resetVisited]
  rfl

/-- The state in which the carving loop starts satisfies the invariant. -/
theorem genInv_start {n : Int} (hn : 1 ≤ n) :
    ∃ g0 g1, newGrid n ({} : Cell) = .ok g0 ∧
      modifyAt g0 0 0 (fun c => { c with visited := true }) = .ok g1 ∧
      GenInv n { maze := g1, stack := [⟨0, 0⟩], drawn := 0, marked := [⟨0, 0⟩] } := by
  have h0 : newGrid n ({} : Cell) =
      .ok (List.replicate n.toNat (List.replicate n.toNat {})) := by
    unfold newGrid
    rw [if_neg (by omega)]
  obtain ⟨hg0, -, hd0⟩ := isGrid_newGrid h0
  have hor : InBounds n ⟨0, 0⟩ := ⟨le_refl _, by simp only; omega, le_refl _, by simp only; omega⟩
  obtain ⟨g1, h1⟩ := modifyAt_ok hg0 hor (fun c : Cell => { c with visited := true })
  obtain ⟨hg1, -, hd1⟩ := modifyAt_spec hg0 h1 ({} : Cell)
  have hcell : ∀ q, cellAt g1 q = if q = ⟨0, 0⟩ then { visited := true } else {} := by
    intro q
    unfold cellAt
    rw [hd1 q, hd0, hd0]
  have hwall : ∀ q e, wallOpen g1 q e = false := by
    intro q e
    unfold wallOpen
    rw [hcell q]
    match e with
    | 0 => by_cases h : q = ⟨0, 0⟩ <;> simp [h, Cell.walls]
    | 1 => by_cases h : q = ⟨0, 0⟩ <;> simp [h, Cell.walls]
    | 2 => by_cases h : q = ⟨0, 0⟩ <;> simp [h, Cell.walls]
    | 3 => by_cases h : q = ⟨0, 0⟩ <;> simp [h, Cell.walls]
    | k + 4 => simp [Cell.walls]
  have hopen : ∀ a b, ¬ OpenBothWays n g1 a b := by
    rintro a b ⟨-, -, e, -, -, h, -⟩
    rw [hwall] at h
    cases h
  refine ⟨_, g1, h0, h1, hg1, ?_, ?_, ?_, ?_, ?_, ?_, ?_, ?_, ?_, rfl⟩
  · intro p hp; exact hp
  · intro p hp
    rw [List.mem_singleton.1 hp]; exact hor
  · intro p _
    simp only [hcell p, List.mem_singleton]
    by_cases h : p = ⟨0, 0⟩
    · simp [h]
    · simp [h]
  · exact List.nodup_singleton _
  · exact List.mem_singleton_self _
  · intro p hp hps
    exact absurd hp hps
  · intro p e h
    rw [hwall] at h
    cases h
  · intro p hp
    rw [List.mem_singleton.1 hp]
  · unfold edgeCount
    simp [hopen]

/-- When the stack is empty every cell of the grid has been marked. -/
theorem GenInv.all_marked {n : Int} {s : GenState} (inv : GenInv n s) (he : s.stack = []) :
    ∀ p, InBounds n p → p ∈ s.marked := by
  have hstep : ∀ p ∈ s.marked, ∀ dir, dir < 4 → InBounds n (moveDir p dir) →
      moveDir p dir ∈ s.marked := by
    intro p hp dir hd hin
    exact inv.closed p hp (by rw [he]; exact List.not_mem_nil _) dir hd hin
  have hcol : ∀ b : Nat, (b : Int) < n → (⟨0, (b : Int)⟩ : Vector2i) ∈ s.marked := by
    intro b
    induction b with
    | zero => intro _; exact inv.origin
    | succ b ih =>
      intro hb
      have hb1 : (b : Int) < n := by omega
      have := hstep _ (ih hb1) 2 (by omega)
        (by simp only [moveDir, InBounds]; omega)
      simpa [moveDir] using this
  have hall : ∀ a b : Nat, (a : Int) < n → (b : Int) < n →
      (⟨(a : Int), (b : Int)⟩ : Vector2i) ∈ s.marked := by
    intro a
    induction a with
    | zero => intro b _ hb; exact hcol b hb
    | succ a ih =>
      intro b ha hb
      have ha1 : (a : Int) < n := by omega
      have := hstep _ (ih b ha1 hb) 1 (by omega)
        (by simp only [moveDir, InBounds]; omega)
      simpa [moveDir] using this
  intro p ⟨hx0, hx1, hy0, hy1⟩
  have := hall p.x.toNat p.y.toNat (by omega) (by omega)
  have hx : ((p.x.toNat : Nat) : Int) = p.x := Int.toNat_of_nonneg hx0
  have hy : ((p.y.toNat : Nat) : Int) = p.y := Int.toNat_of_nonneg hy0
  rw [hx, hy] at this
  exact this

/-- For every size `n ≥ 1` and every random stream the carving loop of `generateMaze`
comes to its end, with an empty stack and the invariant in force. -/
theorem carveMaze_spec {n : Int} (hn : 1 ≤ n) (rng : Nat → Nat) :
    ∃ s, carveMaze n rng = .ok s ∧ GenInv n s ∧ s.stack = [] := by
  obtain ⟨g0, g1, h0, h1, inv⟩ := genInv_start hn
  obtain ⟨s, hs, inv1, he⟩ := carveLoop_spec (n := n) rng (2 * n.toNat * n.toNat) _ inv
    (by
      simp only [List.length_singleton]
      have : 1 ≤ n.toNat * n.toNat := by
        have h1 : 1 ≤ n.toNat := by omega
        exact Nat.mul_le_mul h1 h1
      rw [Nat.mul_assoc]
      omega)
  refine ⟨s, ?_, inv1, he⟩
  unfold carveMaze
  simp only [bind, Except.bind, h0, h1]
  exact hs

theorem generateMaze_eq {n : Int} {rng : Nat → Nat} {s : GenState}
    (h : carveMaze n rng = .ok s) : generateMaze n rng = .ok (resetVisited s.maze) := by
  unfold generateMaze
  simp only [bind, Except.bind, h, pure, Except.pure]

/-! ## Consequences of the invariant -/

theorem wallOpen_iff_of_readAt {maze : List (List Cell)} {p : Vector2i} {c : Cell}
    (h : readAt maze p.y p.x = .ok c) (dir : Nat) :
    wallOpen maze p dir = true ↔ c.walls dir = .ok false := by
  unfold wallOpen cellAt lookup
  rw [h]
  simp only
  cases hw : c.walls dir with
  | error e => simp
  | ok w => cases w <;> simp

theorem connected_of_genInv {n : Int} {s : GenState} (inv : GenInv n s) (he : s.stack = []) :
    Connected n s.maze := by
  intro a b ha hb
  have h1 := inv.conn a (inv.all_marked he a ha)
  have h2 := inv.conn b (inv.all_marked he b hb)
  have hsymm : Symmetric (OpenBothWays n s.maze) := fun _ _ h => openBothWays_symm h
  exact Relation.ReflTransGen.trans (Relation.ReflTransGen.symmetric hsymm h1) h2

theorem connected_resetVisited {n : Int} {maze : List (List Cell)} (h : Connected n maze) :
    Connected n (resetVisited maze) := by
  intro a b ha hb
  apply Relation.ReflTransGen.mono _ (h a b ha hb)
  intro x y hxy
  exact (openBothWays_congr (wallOpen_resetVisited maze) x y).2 hxy

theorem edgeCount_of_genInv {n : Int} (hn : 0 ≤ n) {s : GenState} (inv : GenInv n s)
    (he : s.stack = []) : (edgeCount n s.maze : Int) = n * n - 1 := by
  have h1 := length_eq_of_marked inv.nodup inv.marked_inb (inv.all_marked he)
  have h2 := inv.edges
  have h3 : ((n.toNat * n.toNat : Nat) : Int) = n * n := by
    rw [Nat.cast_mul, Int.toNat_of_nonneg hn]
  have h4 : ((edgeCount n s.maze + 1 : Nat) : Int) = n * n := by
    rw [h2, h1, h3]
  push_cast at h4
  omega

/-- Wall symmetry of a carved maze, on the flags themselves. -/
theorem walls_symmetric_of_genInv {n : Int} {s : GenState} (inv : GenInv n s)
    (a : Vector2i) (dir : Nat) (hd : dir < 4) :
    wallOpen s.maze a dir = true ↔ wallOpen s.maze (moveDir a dir) (opposite dir) = true := by
  constructor
  · intro h; exact (inv.walls a dir h).2.2
  · intro h
    have := (inv.walls _ _ h).2.2
    rwa [moveDir_opposite hd, opposite_opposite hd] at this

/-- An open wall of a carved maze leads to a cell of the grid. -/
theorem inBounds_of_wallOpen {n : Int} {s : GenState} (inv : GenInv n s)
    {p : Vector2i} {dir : Nat} (h : wallOpen s.maze p dir = true) :
    InBounds n (moveDir p dir) :=
  inv.marked_inb _ (inv.walls p dir h).2.1

/-! ## The invariant of the search loop -/

theorem walls_ok_of_lt (c : Cell) {k : Nat} (hk : k < 4) : ∃ w, c.walls k = .ok w := by
  have : k = 0 ∨ k = 1 ∨ k = 2 ∨ k = 3 := by omega
  rcases this with rfl | rfl | rfl | rfl <;> exact ⟨_, rfl⟩

/-- Discovering a new cell `next` from the cell `u` at the front of the queue keeps the
invariant of the search loop. -/
theorem BfsInv.discover {n : Int} {maze : List (List Cell)} {start : Vector2i}
    {visited v1 : List (List Bool)} {parent p1 : List (List Vector2i)}
    {done q : List Vector2i} {d d1 : Vector2i → Nat} {u next : Vector2i}
    (inv : BfsInv n maze start visited parent done (u :: q) d)
    (hstep : Step n maze u next) (hnew : seenAt visited next = false)
    (hvis : modifyAt visited next.y next.x (fun _ => true) = .ok v1)
    (hpar : modifyAt parent next.y next.x (fun _ => u) = .ok p1)
    (hd_next : d1 next = d u + 1) (hd_other : ∀ p, p ≠ next → d1 p = d p) :
    BfsInv n maze start v1 p1 done (u :: (q ++ [next])) d1 := by
  have hin : InBounds n next := hstep.2.1
  obtain ⟨gv1, -, ev⟩ := modifyAt_spec inv.gridV hvis false
  obtain ⟨gp1, -, ep⟩ := modifyAt_spec inv.gridP hpar (⟨-1, -1⟩ : Vector2i)
  have hnn : (⟨next.x, next.y⟩ : Vector2i) = next := rfl
  rw [hnn] at ev ep
  have hunseen : ¬ (next ∈ done ∨ next ∈ u :: q) := by
    intro h
    rw [(inv.seen_iff next hin).2 h] at hnew
    cases hnew
  have hne : ∀ p, p ∈ done ∨ p ∈ u :: q → p ≠ next := by
    intro p hp h
    exact hunseen (h ▸ hp)
  have hum : u ∈ u :: q := List.mem_cons_self _ _
  have hd_old : ∀ p, p ∈ done ∨ p ∈ u :: q → d1 p = d p :=
    fun p hp => hd_other p (hne p hp)
  have hmem : ∀ p, p ∈ u :: (q ++ [next]) ↔ p ∈ u :: q ∨ p = next := by
    intro p
    simp only [List.mem_cons, List.mem_append, List.mem_singleton, List.not_mem_nil, or_false,
      or_assoc]
  have hold : ∀ p, p ∈ done ∨ p ∈ u :: q → p ∈ done ∨ p ∈ u :: (q ++ [next]) := by
    intro p hp
    rcases hp with h | h
    · exact Or.inl h
    · exact Or.inr ((hmem p).2 (Or.inl h))
  have hcases : ∀ p, p ∈ done ∨ p ∈ u :: (q ++ [next]) → (p ∈ done ∨ p ∈ u :: q) ∨ p = next := by
    intro p hp
    rcases hp with h | h
    · exact Or.inl (Or.inl h)
    · rcases (hmem p).1 h with h | h
      · exact Or.inl (Or.inr h)
      · exact Or.inr h
  refine ⟨gv1, gp1, ?_, ?_, ?_, ?_, ?_, ?_, ?_, ?_, ?_, ?_⟩
  · intro p hp
    unfold seenAt
    rw [ev p]
    by_cases h : p = next
    · subst h
      simp only [if_true, true_iff]
      exact Or.inr ((hmem _).2 (Or.inr rfl))
    · rw [if_neg h]
      have := inv.seen_iff p hp
      unfold seenAt at this
      rw [this, hmem]
      tauto
  · intro p hp
    rcases hcases p hp with h | h
    · exact inv.inb p h
    · exact h ▸ hin
  · have : done ++ u :: (q ++ [next]) = (done ++ u :: q) ++ [next] := by simp
    rw [this]
    apply List.Nodup.append inv.nodup (List.nodup_singleton _)
    intro p hp1 hp2
    rw [List.mem_singleton] at hp2
    rw [List.mem_append] at hp1
    exact hne p hp1 hp2
  · exact hold _ inv.start_seen
  · rw [hd_old _ inv.start_seen]; exact inv.start_d
  · intro p hp hps
    have e : parentAt p1 p = if p = next then u else parentAt parent p := by
      unfold parentAt
      rw [ep p]
    rw [e]
    rcases hcases p hp with h | h
    · rw [if_neg (hne p h)]
      obtain ⟨h1, h2, h3⟩ := inv.par p h hps
      refine ⟨hold _ h1, h2, ?_⟩
      rw [hd_old _ h, hd_old _ h1]
      exact h3
    · subst h
      rw [if_pos rfl]
      refine ⟨Or.inr ((hmem _).2 (Or.inl hum)), hstep, ?_⟩
      rw [hd_next, hd_old _ (Or.inr hum)]
  · have : u :: (q ++ [next]) = (u :: q) ++ [next] := by simp
    rw [this, List.pairwise_append]
    refine ⟨?_, List.pairwise_singleton _ _, ?_⟩
    · apply List.Pairwise.imp_of_mem _ inv.sorted
      intro a b ha hb hab
      rw [hd_old _ (Or.inr ha), hd_old _ (Or.inr hb)]
      exact hab
    · intro a ha b hb
      rw [List.mem_singleton] at hb
      subst hb
      rw [hd_next, hd_old _ (Or.inr ha)]
      exact inv.span u hum a ha
  · intro p hp v hv
    rw [hd_old _ (Or.inl hp)]
    rcases (hmem v).1 hv with h | h
    · rw [hd_old _ (Or.inr h)]
      exact inv.done_le p hp v h
    · subst h
      rw [hd_next]
      have := inv.done_le p hp u hum
      omega
  · intro v hv w hw
    have hsort : ∀ x ∈ u :: q, d u ≤ d x := by
      intro x hx
      rcases List.mem_cons.1 hx with h | h
      · rw [h]
      · exact List.rel_of_pairwise_cons inv.sorted h
    rcases (hmem v).1 hv with h1 | h1 <;> rcases (hmem w).1 hw with h2 | h2
    · rw [hd_old _ (Or.inr h1), hd_old _ (Or.inr h2)]
      exact inv.span v h1 w h2
    · subst h2
      rw [hd_old _ (Or.inr h1), hd_next]
      have := hsort v h1
      omega
    · subst h1
      rw [hd_old _ (Or.inr h2), hd_next]
      have := inv.span u hum w h2
      omega
    · subst h1; subst h2
      omega
  · intro u0 hu0 v hv
    obtain ⟨h1, h2⟩ := inv.closed u0 hu0 v hv
    refine ⟨hold _ h1, ?_⟩
    rw [hd_old _ h1, hd_old _ (Or.inl hu0)]
    exact h2

/-- One pass of the `for` body keeps the invariant and deals with direction `k`. -/
theorem expandDir_spec {n : Int} {maze : List (List Cell)} {start : Vector2i}
    (hm : IsGrid n maze) {s : BfsState} {u : Vector2i} {done : List Vector2i}
    {d : Vector2i → Nat} {k : Nat} (hk : k < 4)
    (inv : BfsInv n maze start s.visited s.parent done (u :: s.q) d)
    (hexp : Expanded n maze u k done (u :: s.q) d) :
    ∃ s1 d1, expandDir n maze u s k = .ok s1 ∧ s1.foundPath = s.foundPath ∧
      BfsInv n maze start s1.visited s1.parent done (u :: s1.q) d1 ∧
      Expanded n maze u (k + 1) done (u :: s1.q) d1 := by
  have hum : u ∈ u :: s.q := List.mem_cons_self _ _
  have hu : InBounds n u := inv.inb u (Or.inr hum)
  have hread := cellAt_of_inBounds hm hu
  obtain ⟨w, hw⟩ := walls_ok_of_lt (cellAt maze u) hk
  have hopen : wallOpen maze u k = !w := by
    unfold wallOpen; rw [hw]
  have hkeep : ∀ dir, dir < k + 1 → dir ≠ k → wallOpen maze u dir = true →
      InBounds n (moveDir u dir) →
      (moveDir u dir ∈ done ∨ moveDir u dir ∈ u :: s.q) ∧ d (moveDir u dir) ≤ d u + 1 :=
    fun dir h1 h2 => hexp dir (by omega)
  unfold expandDir
  simp only [bind, Except.bind, hread, hw, pure, Except.pure]
  cases w with
  | true =>
    simp only [Bool.not_true, Bool.false_eq_true, if_false]
    refine ⟨s, d, rfl, rfl, inv, ?_⟩
    intro dir h1 h2 h3
    by_cases h : dir = k
    · rw [h, hopen] at h2; cases h2
    · exact hkeep dir h1 h h2 h3
  | false =>
    simp only [Bool.not_false, if_true]
    by_cases hin : InBounds n (moveDir u k)
    · have hcond : (moveDir u k).x ≥ 0 ∧ (moveDir u k).x < n ∧ (moveDir u k).y ≥ 0 ∧
          (moveDir u k).y < n := hin
      rw [if_pos hcond]
      have hseen := readAt_of_inBounds inv.gridV hin false
      simp only [hseen]
      have hstep : Step n maze u (moveDir u k) := ⟨hu, hin, k, hk, by rw [hopen]; rfl, rfl⟩
      cases hs : lookup s.visited (moveDir u k) false with
      | true =>
        simp only [Bool.not_true, Bool.false_eq_true, if_false]
        refine ⟨s, d, rfl, rfl, inv, ?_⟩
        intro dir h1 h2 h3
        by_cases h : dir = k
        · subst h
          have hmem := (inv.seen_iff _ hin).1 hs
          refine ⟨hmem, ?_⟩
          rcases hmem with h | h
          · have := inv.done_le _ h u hum
            omega
          · exact inv.span u hum _ h
        · exact hkeep dir h1 h h2 h3
      | false =>
        simp only [Bool.not_false, if_true]
        obtain ⟨v1, hv1⟩ := modifyAt_ok inv.gridV hin (fun _ => true)
        obtain ⟨p1, hp1⟩ := modifyAt_ok inv.gridP hin (fun _ => u)
        simp only [hv1, hp1]
        have hd_next : (fun p => if p = moveDir u k then d u + 1 else d p) (moveDir u k) =
            d u + 1 := by simp only [if_true]
        have hd_other : ∀ p, p ≠ moveDir u k →
            (fun p => if p = moveDir u k then d u + 1 else d p) p = d p := by
          intro p hp; simp only [if_neg hp]
        have inv1 := inv.discover hstep hs hv1 hp1 hd_next hd_other
        refine ⟨_, _, rfl, rfl, inv1, ?_⟩
        have hune : u ≠ moveDir u k := fun h => moveDir_ne hk h.symm
        intro dir h1 h2 h3
        simp only [if_neg hune]
        by_cases h : dir = k
        · subst h
          simp only [if_true, le_refl, and_true]
          right
          simp
        · obtain ⟨h4, h5⟩ := hkeep dir h1 h h2 h3
          have hne : moveDir u dir ≠ moveDir u k := by
            intro he
            exact h (moveDir_inj (wallOpen_lt h2) hk he)
          simp only [if_neg hne]
          refine ⟨?_, h5⟩
          rcases h4 with h4 | h4
          · exact Or.inl h4
          · right
            rcases List.mem_cons.1 h4 with h6 | h6
            · rw [h6]; exact List.mem_cons_self _ _
            · exact List.mem_cons_of_mem _ (List.mem_append_left _ h6)
    · have hcond : ¬ ((moveDir u k).x ≥ 0 ∧ (moveDir u k).x < n ∧ (moveDir u k).y ≥ 0 ∧
          (moveDir u k).y < n) := hin
      rw [if_neg hcond]
      refine ⟨s, d, rfl, rfl, inv, ?_⟩
      intro dir h1 h2 h3
      by_cases h : dir = k
      · rw [h] at h3; exact absurd h3 hin
      · exact hkeep dir h1 h h2 h3

/-- The `for` loop over the four directions keeps the invariant and deals with every
direction of `u`. -/
theorem expandAll_spec {n : Int} {maze : List (List Cell)} {start : Vector2i}
    (hm : IsGrid n maze) {s : BfsState} {u : Vector2i} {done : List Vector2i}
    {d : Vector2i → Nat}
    (inv : BfsInv n maze start s.visited s.parent done (u :: s.q) d) :
    ∃ s1 d1, expandAll n maze u s = .ok s1 ∧ s1.foundPath = s.foundPath ∧
      BfsInv n maze start s1.visited s1.parent done (u :: s1.q) d1 ∧
      Expanded n maze u 4 done (u :: s1.q) d1 := by
  have h0 : Expanded n maze u 0 done (u :: s.q) d := by
    intro dir h; omega
  obtain ⟨s1, d1, e1, f1, inv1, x1⟩ := expandDir_spec hm (by omega) inv h0
  obtain ⟨s2, d2, e2, f2, inv2, x2⟩ := expandDir_spec hm (by omega) inv1 x1
  obtain ⟨s3, d3, e3, f3, inv3, x3⟩ := expandDir_spec hm (by omega) inv2 x2
  obtain ⟨s4, d4, e4, f4, inv4, x4⟩ := expandDir_spec hm (by omega) inv3 x3
  refine ⟨s4, d4, ?_, by rw [f4, f3, f2, f1], inv4, x4⟩
  unfold expandAll
  simp only [bind, Except.bind, e1, e2, e3, e4]

/-- Once every direction of the front cell `u` is dealt with, `u` joins the expanded
cells. -/
theorem BfsInv.finish {n : Int} {maze : List (List Cell)} {start : Vector2i}
    {visited : List (List Bool)} {parent : List (List Vector2i)}
    {done q : List Vector2i} {d : Vector2i → Nat} {u : Vector2i}
    (inv : BfsInv n maze start visited parent done (u :: q) d)
    (hexp : Expanded n maze u 4 done (u :: q) d) :
    BfsInv n maze start visited parent (u :: done) q d := by
  have hum : u ∈ u :: q := List.mem_cons_self _ _
  have hiff : ∀ p, (p ∈ u :: done ∨ p ∈ q) ↔ (p ∈ done ∨ p ∈ u :: q) := by
    intro p
    simp only [List.mem_cons]
    tauto
  have hclosed_u : ∀ v, Step n maze u v → (v ∈ done ∨ v ∈ u :: q) ∧ d v ≤ d u + 1 := by
    rintro v ⟨-, hv, dir, hd, ho, rfl⟩
    exact hexp dir hd ho hv
  refine ⟨inv.gridV, inv.gridP, ?_, ?_, ?_, ?_, inv.start_d, ?_, ?_, ?_, ?_, ?_⟩
  · intro p hp
    rw [hiff]; exact inv.seen_iff p hp
  · intro p hp
    exact inv.inb p ((hiff p).1 hp)
  · have := inv.nodup
    rw [List.nodup_middle] at this
    exact this
  · exact (hiff _).2 inv.start_seen
  · intro p hp hps
    obtain ⟨h1, h2, h3⟩ := inv.par p ((hiff p).1 hp) hps
    exact ⟨(hiff _).2 h1, h2, h3⟩
  · exact (List.pairwise_cons.1 inv.sorted).2
  · intro p hp v hv
    rcases List.mem_cons.1 hp with h | h
    · rw [h]; exact List.rel_of_pairwise_cons inv.sorted hv
    · exact inv.done_le p h v (List.mem_cons_of_mem _ hv)
  · intro v hv w hw
    exact inv.span v (List.mem_cons_of_mem _ hv) w (List.mem_cons_of_mem _ hw)
  · intro u0 hu0 v hv
    rcases List.mem_cons.1 hu0 with h | h
    · subst h
      obtain ⟨h1, h2⟩ := hclosed_u v hv
      exact ⟨(hiff _).2 h1, h2⟩
    · obtain ⟨h1, h2⟩ := inv.closed u0 h v hv
      exact ⟨(hiff _).2 h1, h2⟩

/-- The search loop ends: either the goal was taken from the front of the queue, or the
queue ran empty with the goal never expanded. -/
theorem bfsLoop_spec {n : Int} {maze : List (List Cell)} {start : Vector2i}
    (hm : IsGrid n maze) (goal : Vector2i) :
    ∀ (fuel : Nat) (s : BfsState) (done : List Vector2i) (d : Vector2i → Nat),
      BfsInv n maze start s.visited s.parent done s.q d → s.foundPath = false →
      goal ∉ done → n.toNat * n.toNat ≤ done.length + fuel →
      ∃ s1 done1 d1, bfsLoop n maze goal fuel s = .ok s1 ∧
        ((s1.foundPath = true ∧
            BfsInv n maze start s1.visited s1.parent done1 (goal :: s1.q) d1) ∨
          (s1.foundPath = false ∧ goal ∉ done1 ∧
            BfsInv n maze start s1.visited s1.parent done1 [] d1))
  | fuel, s, done, d, inv, hf, hg, hfuel => by
    unfold bfsLoop
    match hq : s.q with
    | [] =>
      simp only
      refine ⟨s, done, d, rfl, Or.inr ⟨hf, hg, ?_⟩⟩
      rw [← hq]; exact inv
    | current :: rest =>
      simp only [hf, Bool.false_eq_true, if_false]
      have hlen : (done ++ s.q).length ≤ n.toNat * n.toNat := by
        apply length_le_of_marked inv.nodup
        intro p hp
        exact inv.inb p (List.mem_append.1 hp)
      rw [hq] at hlen inv
      simp only [List.length_append, List.length_cons] at hlen
      match fuel with
      | 0 => omega
      | k + 1 =>
        dsimp only
        by_cases hc : current = goal
        · rw [if_pos hc]
          subst hc
          exact ⟨_, done, d, rfl, Or.inl ⟨rfl, inv⟩⟩
        · rw [if_neg hc]
          obtain ⟨s1, d1, e1, f1, inv1, x1⟩ := expandAll_spec hm
            (s := { parent := s.parent, visited := s.visited, q := rest, foundPath := false })
            inv
          simp only [e1]
          apply bfsLoop_spec hm goal k s1 (current :: done) d1 (inv1.finish x1) f1
          · simp only [List.mem_cons, not_or]
            exact ⟨fun h => hc h.symm, hg⟩
          · simp only [List.length_cons]
            omega

theorem reach_cons {n : Int} {maze : List (List Cell)} {a b : Vector2i} (h : Step n maze a b) :
    ∀ {k : Nat} {v : Vector2i}, Reach n maze b k v → Reach n maze a (k + 1) v := by
  intro k v hr
  induction hr with
  | zero => exact Reach.succ Reach.zero h
  | succ _ hs ih => exact Reach.succ ih hs

theorem reach_of_walk {n : Int} {maze : List (List Cell)} {b : Vector2i} :
    ∀ (w : List Vector2i) (a : Vector2i), Walk n maze a w b → Reach n maze a w.length b
  | [], a, h => by
    obtain ⟨-, h2⟩ := h
    simp only [List.getLast?_singleton, Option.some.injEq] at h2
    subst h2
    exact Reach.zero
  | x :: w, a, h => by
    obtain ⟨h1, h2⟩ := h
    rw [List.chain_cons] at h1
    rw [List.getLast?_cons_cons] at h2
    exact reach_cons h1.1 (reach_of_walk w x ⟨h1.2, h2⟩)

theorem reach_of_reachable {n : Int} {maze : List (List Cell)} {a b : Vector2i}
    (h : Reachable n maze a b) : ∃ k, Reach n maze a k b := by
  induction h with
  | refl => exact ⟨0, Reach.zero⟩
  | tail _ hs ih =>
    obtain ⟨k, hk⟩ := ih
    exact ⟨k + 1, Reach.succ hk hs⟩

theorem reachable_of_reach {n : Int} {maze : List (List Cell)} {a b : Vector2i} {k : Nat}
    (h : Reach n maze a k b) : Reachable n maze a b := by
  induction h with
  | zero => exact Relation.ReflTransGen.refl
  | succ _ hs ih => exact Relation.ReflTransGen.tail ih hs

theorem walk_snoc {n : Int} {maze : List (List Cell)} {b c : Vector2i} (hs : Step n maze b c) :
    ∀ (w : List Vector2i) (a : Vector2i), Walk n maze a w b → Walk n maze a (w ++ [c]) c
  | [], a, h => by
    obtain ⟨-, h2⟩ := h
    simp only [List.getLast?_singleton, Option.some.injEq] at h2
    subst h2
    exact ⟨List.Chain.cons hs List.Chain.nil, by simp⟩
  | x :: w, a, h => by
    obtain ⟨h1, h2⟩ := h
    rw [List.chain_cons] at h1
    rw [List.getLast?_cons_cons] at h2
    obtain ⟨h3, h4⟩ := walk_snoc hs w x ⟨h1.2, h2⟩
    refine ⟨?_, ?_⟩
    · rw [List.cons_append, List.chain_cons]
      exact ⟨h1.1, h3⟩
    · rw [List.cons_append, List.getLast?_cons_cons]
      exact h4

/-- Every cell reached from `start` in `k` steps has been expanded at depth at most `k`,
unless the front of the queue is itself at depth at most `k`. -/
theorem BfsInv.reach_bound {n : Int} {maze : List (List Cell)} {start : Vector2i}
    {visited : List (List Bool)} {parent : List (List Vector2i)}
    {done qq : List Vector2i} {d : Vector2i → Nat}
    (inv : BfsInv n maze start visited parent done qq d) :
    ∀ {k : Nat} {v : Vector2i}, Reach n maze start k v →
      (v ∈ done ∧ d v ≤ k) ∨ (∃ h, qq.head? = some h ∧ d h ≤ k) := by
  have hhead : ∀ v ∈ qq, ∃ h, qq.head? = some h ∧ d h ≤ d v := by
    intro v hv
    match hqq : qq with
    | [] => cases hv
    | h :: t =>
      refine ⟨h, rfl, ?_⟩
      rcases List.mem_cons.1 hv with e | e
      · rw [e]
      · exact List.rel_of_pairwise_cons inv.sorted e
  intro k v hr
  induction hr with
  | zero =>
    rcases inv.start_seen with h | h
    · exact Or.inl ⟨h, by rw [inv.start_d]⟩
    · obtain ⟨x, hx, hd⟩ := hhead _ h
      exact Or.inr ⟨x, hx, by rw [inv.start_d] at hd; omega⟩
  | succ _ hs ih =>
    rcases ih with ⟨h1, h2⟩ | ⟨x, hx, hd⟩
    · obtain ⟨h3, h4⟩ := inv.closed _ h1 _ hs
      rcases h3 with h3 | h3
      · exact Or.inl ⟨h3, by omega⟩
      · obtain ⟨x, hx, hd⟩ := hhead _ h3
        exact Or.inr ⟨x, hx, by omega⟩
    · exact Or.inr ⟨x, hx, by omega⟩

/-- Walking the `parent` links back from a discovered cell `v` ends at `start` after
`d v` steps and collects a walk from `start` to `v`, last cell first. -/
theorem walkBack_spec {n : Int} {maze : List (List Cell)} {start : Vector2i}
    {visited : List (List Bool)} {parent : List (List Vector2i)}
    {done qq : List Vector2i} {d : Vector2i → Nat}
    (inv : BfsInv n maze start visited parent done qq d) :
    ∀ (m : Nat) (v : Vector2i), d v = m → (v ∈ done ∨ v ∈ qq) →
      ∀ (fuel : Nat) (acc : List Vector2i), m ≤ fuel →
      ∃ l, walkBack parent start fuel v acc = .ok (acc ++ l) ∧ l.length = m ∧
        Walk n maze start l.reverse v ∧ (∀ x ∈ l, InBounds n x ∧ 1 ≤ d x ∧ d x ≤ m) ∧
        l.Pairwise (fun a b => d b < d a)
  | 0, v, hd, hv, fuel, acc, _ => by
    have hvs : v = start := by
      by_contra hne
      have := (inv.par v hv hne).2.2
      omega
    subst hvs
    refine ⟨[], ?_, rfl, ⟨List.Chain.nil, rfl⟩, ?_, List.Pairwise.nil⟩
    · unfold walkBack
      simp
    · intro x hx; cases hx
  | m + 1, v, hd, hv, fuel, acc, hfuel => by
    have hne : v ≠ start := by
      intro h
      rw [h, inv.start_d] at hd
      omega
    obtain ⟨h1, h2, h3⟩ := inv.par v hv hne
    have hin : InBounds n v := inv.inb v hv
    match fuel with
    | 0 => omega
    | f + 1 =>
      obtain ⟨l, e, hl, hw, hall, hp⟩ := walkBack_spec inv m (parentAt parent v) (by omega) h1
        f (acc ++ [v]) (by omega)
      refine ⟨v :: l, ?_, by simp [hl], ?_, ?_, ?_⟩
      · unfold walkBack
        rw [if_neg hne]
        simp only
        rw [readAt_of_inBounds inv.gridP hin (⟨-1, -1⟩ : Vector2i)]
        simp only
        have : acc ++ v :: l = acc ++ [v] ++ l := by simp
        rw [this]
        exact e
      · rw [List.reverse_cons]
        exact walk_snoc h2 _ _ hw
      · intro x hx
        rcases List.mem_cons.1 hx with h | h
        · subst h
          exact ⟨hin, by omega, by omega⟩
        · obtain ⟨a, b, c⟩ := hall x h
          exact ⟨a, b, by omega⟩
      · rw [List.pairwise_cons]
        refine ⟨?_, hp⟩
        intro x hx
        have := (hall x hx).2.2
        omega

/-! ## What findPath returns -/

/-- The state in which the search loop starts satisfies the invariant. -/
theorem bfsInv_start {n : Int} (maze : List (List Cell)) {start : Vector2i}
    (hs : InBounds n start) :
    ∃ pg vg v1, newGrid n (⟨-1, -1⟩ : Vector2i) = .ok pg ∧ newGrid n false = .ok vg ∧
      modifyAt vg start.y start.x (fun _ => true) = .ok v1 ∧
      BfsInv n maze start v1 pg [] [start] (fun _ => 0) := by
  have hn : ¬ n < 0 := by
    obtain ⟨h1, h2, -, -⟩ := hs
    omega
  have h0 : newGrid n (⟨-1, -1⟩ : Vector2i) =
      .ok (List.replicate n.toNat (List.replicate n.toNat ⟨-1, -1⟩)) := by
    unfold newGrid; rw [if_neg hn]
  have h1 : newGrid n false = .ok (List.replicate n.toNat (List.replicate n.toNat false)) := by
    unfold newGrid; rw [if_neg hn]
  obtain ⟨gp, -, -⟩ := isGrid_newGrid h0
  obtain ⟨gv, -, ev⟩ := isGrid_newGrid h1
  obtain ⟨v1, h2⟩ := modifyAt_ok gv hs (fun _ => true)
  obtain ⟨gv1, -, ev1⟩ := modifyAt_spec gv h2 false
  have hss : (⟨start.x, start.y⟩ : Vector2i) = start := rfl
  rw [hss] at ev1
  refine ⟨_, _, v1, h0, h1, h2, gv1, gp, ?_, ?_, ?_, ?_, rfl, ?_, ?_, ?_, ?_, ?_⟩
  · intro p _
    unfold seenAt
    rw [ev1 p, ev p]
    by_cases h : p = start <;> simp [h]
  · intro p hp
    rcases hp with h | h
    · cases h
    · rw [List.mem_singleton.1 h]; exact hs
  · simp
  · exact Or.inr (List.mem_singleton_self _)
  · intro p hp hne
    rcases hp with h | h
    · cases h
    · exact absurd (List.mem_singleton.1 h) hne
  · exact List.pairwise_singleton _ _
  · intro p hp; cases hp
  · intro v _ w _; omega
  · intro u hu; cases hu

/-- What `findPath` returns on an `n × n` grid from an in-bounds `start`: it ends without
a fault; when the goal is reachable the result is a walk from `start` to the goal that
repeats no cell, leaves out `start`, and is no longer than any other walk; when the goal
is not reachable the result is empty. -/
theorem findPath_spec {n : Int} {maze : List (List Cell)} {start : Vector2i}
    (hm : IsGrid n maze) (hs : InBounds n start) :
    ∃ path, findPath n maze start = .ok path ∧ (start :: path).Nodup ∧
      ((Walk n maze start path (goalOf n) ∧ (path = [] ↔ start = goalOf n) ∧
          ∀ w, Walk n maze start w (goalOf n) → path.length ≤ w.length) ∨
        (¬ Reachable n maze start (goalOf n) ∧ path = [])) := by
  obtain ⟨pg, vg, v1, h0, h1, h2, inv0⟩ := bfsInv_start maze hs
  obtain ⟨s1, done1, d1, hloop, hcase⟩ := bfsLoop_spec hm (goalOf n)
    (n.toNat * n.toNat) { parent := pg, visited := v1, q := [start], foundPath := false }
    [] (fun _ => 0) inv0 rfl (List.not_mem_nil _) (by simp)
  have hgoal : (⟨n - 1, n - 1⟩ : Vector2i) = goalOf n := rfl
  unfold findPath
  simp only [bind, Except.bind, h0, h1, h2, hgoal, hloop, pure, Except.pure]
  rcases hcase with ⟨hf, inv⟩ | ⟨hf, hg, inv⟩
  · rw [if_pos hf]
    have hgm : goalOf n ∈ done1 ∨ goalOf n ∈ goalOf n :: s1.q :=
      Or.inr (List.mem_cons_self _ _)
    obtain ⟨l0, -, hl0, -, hall0, hp0⟩ :=
      walkBack_spec inv (d1 (goalOf n)) (goalOf n) rfl hgm (d1 (goalOf n)) [] (le_refl _)
    have hnd0 : (start :: l0).Nodup := by
      rw [List.nodup_cons]
      constructor
      · intro h
        have := (hall0 start h).2.1
        rw [inv.start_d] at this
        omega
      · apply List.Pairwise.imp _ hp0
        intro a b hab he
        rw [he] at hab
        omega
    have hbound : d1 (goalOf n) ≤ n.toNat * n.toNat := by
      have := length_le_of_marked hnd0 (by
        intro p hp
        rcases List.mem_cons.1 hp with h | h
        · rw [h]; exact hs
        · exact (hall0 p h).1)
      simp only [List.length_cons, hl0] at this
      omega
    obtain ⟨l, e, hl, hw, hall, hp⟩ :=
      walkBack_spec inv (d1 (goalOf n)) (goalOf n) rfl hgm (n.toNat * n.toNat) [] hbound
    rw [List.nil_append] at e
    simp only [e]
    refine ⟨l.reverse, rfl, ?_, Or.inl ⟨hw, ?_, ?_⟩⟩
    · rw [List.nodup_cons]
      constructor
      · intro h
        have := (hall start (List.mem_reverse.1 h)).2.1
        rw [inv.start_d] at this
        omega
      · rw [List.nodup_reverse]
        apply List.Pairwise.imp _ hp
        intro a b hab he
        rw [he] at hab
        omega
    · constructor
      · intro h
        have hlen : l.length = 0 := by
          rw [← List.length_reverse, h]; rfl
        by_contra hne
        have := (inv.par (goalOf n) hgm (fun h => hne h.symm)).2.2
        omega
      · intro h
        have : l.length = 0 := by rw [hl, ← h, inv.start_d]
        rw [List.length_eq_zero] at this
        rw [this]; rfl
    · intro w hw1
      rw [List.length_reverse, hl]
      rcases inv.reach_bound (reach_of_walk w start hw1) with ⟨-, h⟩ | ⟨x, hx, h⟩
      · exact h
      · simp only [List.head?_cons, Option.some.injEq] at hx
        rw [hx]; exact h
  · rw [hf]
    simp only [Bool.false_eq_true, if_false]
    refine ⟨[], rfl, List.nodup_singleton _, Or.inr ⟨?_, rfl⟩⟩
    intro hr
    obtain ⟨k, hk⟩ := reach_of_reachable hr
    rcases inv.reach_bound hk with ⟨h, -⟩ | ⟨x, hx, -⟩
    · exact hg h
    · cases hx

/-! ## The player move -/

theorem step_symmetric_open {n : Int} {maze : List (List Cell)} (hsym : WallsSymmetric n maze)
    {a b : Vector2i} (h : Step n maze a b) : OpenBothWays n maze a b := by
  obtain ⟨h1, h2, dir, hd, ho, rfl⟩ := h
  exact ⟨h1, h2, dir, hd, rfl, ho, (hsym a dir hd h1 h2).1 ho⟩

theorem wallsSymmetric_of_genInv {n : Int} {s : GenState} (inv : GenInv n s) :
    WallsSymmetric n (resetVisited s.maze) := by
  intro a dir hd _ _
  rw [wallOpen_resetVisited, wallOpen_resetVisited]
  exact walls_symmetric_of_genInv inv a dir hd

/-- An arrow key moves the player of a carved maze to a cell of the grid. -/
theorem tryMove_spec {n : Int} {s : GenState} (inv : GenInv n s) {p : Vector2i}
    (hp : InBounds n p) (dir : Nat) (hd : dir < 4) :
    ∃ q, tryMove (resetVisited s.maze) p dir = .ok q ∧ InBounds n q := by
  have hg := isGrid_resetVisited inv.grid
  have hread := cellAt_of_inBounds hg hp
  obtain ⟨w, hw⟩ := walls_ok_of_lt (cellAt (resetVisited s.maze) p) hd
  unfold tryMove
  simp only [bind, Except.bind, hread, hw, pure, Except.pure]
  cases w with
  | true => exact ⟨p, by simp, hp⟩
  | false =>
    refine ⟨moveDir p dir, by simp, ?_⟩
    apply @inBounds_of_wallOpen _ _ inv p dir
    rw [← wallOpen_resetVisited]
    unfold wallOpen
    rw [hw]
    rfl

theorem keyPressed_spec {n : Int} {s : GenState} (inv : GenInv n s) (g : PlayState)
    (hp : InBounds n g.playerPos) (key : Key) :
    ∃ g1, keyPressed n (resetVisited s.maze) g key = .ok g1 ∧ InBounds n g1.playerPos := by
  unfold keyPressed
  by_cases hst : g.state = GameState.PLAYING
  · rw [if_pos hst]
    cases key with
    | Up =>
      obtain ⟨q, hq, hin⟩ := tryMove_spec inv hp 0 (by omega)
      simp only [bind, Except.bind, hq, Except.map, pure, Except.pure]
      split <;> exact ⟨_, rfl, hin⟩
    | Right =>
      obtain ⟨q, hq, hin⟩ := tryMove_spec inv hp 1 (by omega)
      simp only [bind, Except.bind, hq, Except.map, pure, Except.pure]
      split <;> exact ⟨_, rfl, hin⟩
    | Down =>
      obtain ⟨q, hq, hin⟩ := tryMove_spec inv hp 2 (by omega)
      simp only [bind, Except.bind, hq, Except.map, pure, Except.pure]
      split <;> exact ⟨_, rfl, hin⟩
    | Left =>
      obtain ⟨q, hq, hin⟩ := tryMove_spec inv hp 3 (by omega)
      simp only [bind, Except.bind, hq, Except.map, pure, Except.pure]
      split <;> exact ⟨_, rfl, hin⟩
    | Escape =>
      simp only [bind, Except.bind, pure, Except.pure]
      split <;> exact ⟨_, rfl, hp⟩
    | Other =>
      simp only [bind, Except.bind, pure, Except.pure]
      split <;> exact ⟨_, rfl, hp⟩
  · rw [if_neg hst]
    exact ⟨g, rfl, hp⟩

theorem keysPressed_spec {n : Int} {s : GenState} (inv : GenInv n s) :
    ∀ (keys : List Key) (g : PlayState), InBounds n g.playerPos →
      ∃ g1, keysPressed n (resetVisited s.maze) g keys = .ok g1 ∧ InBounds n g1.playerPos
  | [], g, hp => ⟨g, rfl, hp⟩
  | key :: keys, g, hp => by
    obtain ⟨g1, h1, hp1⟩ := keyPressed_spec inv g hp key
    obtain ⟨g2, h2, hp2⟩ := keysPressed_spec inv keys g1 hp1
    refine ⟨g2, ?_, hp2⟩
    unfold keysPressed
    simp only [h1]
    exact h2

/-- The walls on the outer boundary of a carved maze stand. -/
theorem boundary_of_genInv {n : Int} {s : GenState} (inv : GenInv n s) (p : Vector2i)
    (c : Cell) (h : readAt (resetVisited s.maze) p.y p.x = .ok c) :
    (p.y = 0 → c.walls0 = true) ∧ (p.x = n - 1 → c.walls1 = true) ∧
      (p.y = n - 1 → c.walls2 = true) ∧ (p.x = 0 → c.walls3 = true) := by
  have key : ∀ dir, dir < 4 → ¬ InBounds n (moveDir p dir) → c.walls dir = .ok true := by
    intro dir hd hout
    obtain ⟨w, hw⟩ := walls_ok_of_lt c hd
    cases w with
    | true => exact hw
    | false =>
      exfalso
      apply hout
      apply @inBounds_of_wallOpen _ _ inv p dir
      rw [← wallOpen_resetVisited]
      exact (wallOpen_iff_of_readAt h dir).2 hw
  refine ⟨fun h0 => ?_, fun h0 => ?_, fun h0 => ?_, fun h0 => ?_⟩
  · have := key 0 (by omega) (by simp only [moveDir, InBounds]; omega)
    simpa [Cell.walls] using this
  · have := key 1 (by omega) (by simp only [moveDir, InBounds]; omega)
    simpa [Cell.walls] using this
  · have := key 2 (by omega) (by simp only [moveDir, InBounds]; omega)
    simpa [Cell.walls] using this
  · have := key 3 (by omega) (by simp only [moveDir, InBounds]; omega)
    simpa [Cell.walls] using this

/-! ## The claims about generateMaze and findPath -/

/-- C1: for every size `n ≥ 1` and every stream of random choices, `generateMaze` returns
an `n × n` grid whose passage graph (adjacent cells with the wall pair between them
removed) is connected and has exactly `n * n - 1` edges, that is, a spanning tree. -/
theorem generateMaze_spanning_tree (n : Int) (hn : 1 ≤ n) (rng : Nat → Nat) :
    ∃ maze, generateMaze n rng = .ok maze ∧ IsGrid n maze ∧ Connected n maze ∧
      (edgeCount n maze : Int) = n * n - 1 := by
  obtain ⟨s, hs, inv, he⟩ := carveMaze_spec hn rng
  refine ⟨resetVisited s.maze, generateMaze_eq hs, isGrid_resetVisited inv.grid,
    connected_resetVisited (connected_of_genInv inv he), ?_⟩
  rw [edgeCount_congr (wallOpen_resetVisited s.maze)]
  exact edgeCount_of_genInv (by omega) inv he

theorem generateMaze_spanning_tree_witness :
    (1 : Int) ≤ 3 ∧ ∃ maze, generateMaze 3 (fun k => k) = .ok maze ∧ IsGrid 3 maze ∧
      Connected 3 maze ∧ (edgeCount 3 maze : Int) = 3 * 3 - 1 :=
  ⟨by decide, generateMaze_spanning_tree 3 (by decide) (fun k => k)⟩

/-- C2: every grid returned by `generateMaze` (any `n ≥ 1`, any random choices) is an
`n × n` grid in which, for every cell `a` and direction `dir` whose neighbour is also a
cell of the grid, the flag `walls[dir]` of `a` is `false` exactly when the flag
`walls[opposite dir]` of the neighbour is `false`. -/
theorem generateMaze_walls_symmetric (n : Int) (hn : 1 ≤ n) (rng : Nat → Nat) :
    ∃ maze, generateMaze n rng = .ok maze ∧ IsGrid n maze ∧
      ∀ (a : Vector2i) (dir : Nat) (ca cb : Cell), dir < 4 →
        readAt maze a.y a.x = .ok ca →
        readAt maze (moveDir a dir).y (moveDir a dir).x = .ok cb →
        (ca.walls dir = .ok false ↔ cb.walls (opposite dir) = .ok false) := by
  obtain ⟨s, hs, inv, -⟩ := carveMaze_spec hn rng
  refine ⟨resetVisited s.maze, generateMaze_eq hs, isGrid_resetVisited inv.grid, ?_⟩
  intro a dir ca cb hd ha hb
  rw [← wallOpen_iff_of_readAt ha, ← wallOpen_iff_of_readAt hb, wallOpen_resetVisited,
    wallOpen_resetVisited]
  exact walls_symmetric_of_genInv inv a dir hd

theorem generateMaze_walls_symmetric_witness :
    (1 : Int) ≤ 3 ∧ ∃ maze, generateMaze 3 (fun k => k) = .ok maze ∧ IsGrid 3 maze ∧
      ∀ (a : Vector2i) (dir : Nat) (ca cb : Cell), dir < 4 →
        readAt maze a.y a.x = .ok ca →
        readAt maze (moveDir a dir).y (moveDir a dir).x = .ok cb →
        (ca.walls dir = .ok false ↔ cb.walls (opposite dir) = .ok false) :=
  ⟨by decide, generateMaze_walls_symmetric 3 (by decide) (fun k => k)⟩

/-- C3: on every `n × n` grid of wall flags (symmetric or not) and from every in-bounds
start, `findPath` returns a path, and when that path is not empty its length is the
shortest-path distance from the start to the goal `(n-1, n-1)` in the graph of `Step`:
some walk has that length and no walk from the start to the goal is shorter. -/
theorem findPath_length_is_distance (n : Int) (maze : List (List Cell)) (start : Vector2i)
    (hm : IsGrid n maze) (hs : InBounds n start) :
    ∃ path, findPath n maze start = .ok path ∧
      (path ≠ [] → IsDistance n maze start (goalOf n) path.length) := by
  obtain ⟨path, hp, -, hcase⟩ := findPath_spec hm hs
  refine ⟨path, hp, fun hne => ?_⟩
  rcases hcase with ⟨hw, -, hmin⟩ | ⟨-, he⟩
  · exact ⟨⟨path, hw, rfl⟩, hmin⟩
  · exact absurd he hne

theorem findPath_length_is_distance_witness :
    IsGrid 2 lopsidedMaze ∧ InBounds 2 ⟨0, 0⟩ ∧
      ∃ path, findPath 2 lopsidedMaze ⟨0, 0⟩ = .ok path ∧
        (path ≠ [] → IsDistance 2 lopsidedMaze ⟨0, 0⟩ (goalOf 2) path.length) :=
  ⟨by decide, by decide,
    findPath_length_is_distance 2 lopsidedMaze ⟨0, 0⟩ (by decide) (by decide)⟩

/-- C4, as the code has it: on every `n × n` grid of wall flags and from every in-bounds
start, `findPath` returns a path such that, prefixed with the start, every consecutive
pair is a `Step` (the two cells are grid-adjacent, both in bounds, and the cell being
left has no wall on the side of the move); no position occurs twice and the start is not
in the path; a non-empty path ends at the goal `(n-1, n-1)`; and when the wall flags of
the grid are symmetric, neither cell of a consecutive pair has a wall facing the
other. -/
theorem findPath_is_simple_walk (n : Int) (maze : List (List Cell)) (start : Vector2i)
    (hm : IsGrid n maze) (hs : InBounds n start) :
    ∃ path, findPath n maze start = .ok path ∧
      List.Chain (Step n maze) start path ∧ (start :: path).Nodup ∧
      (path ≠ [] → path.getLast? = some (goalOf n)) ∧
      (WallsSymmetric n maze → List.Chain (OpenBothWays n maze) start path) := by
  obtain ⟨path, hp, hnd, hcase⟩ := findPath_spec hm hs
  have hchain : List.Chain (Step n maze) start path ∧
      (path ≠ [] → path.getLast? = some (goalOf n)) := by
    rcases hcase with ⟨hw, -, -⟩ | ⟨-, he⟩
    · refine ⟨hw.1, fun hne => ?_⟩
      have := hw.2
      cases path with
      | nil => exact absurd rfl hne
      | cons x t => rwa [List.getLast?_cons_cons] at this
    · subst he
      exact ⟨List.Chain.nil, fun hne => absurd rfl hne⟩
  refine ⟨path, hp, hchain.1, hnd, hchain.2, fun hsym => ?_⟩
  exact List.Chain.imp (fun a b h => step_symmetric_open hsym h) hchain.1

theorem findPath_is_simple_walk_witness :
    IsGrid 2 lopsidedMaze ∧ InBounds 2 ⟨0, 0⟩ ∧
      ∃ path, findPath 2 lopsidedMaze ⟨0, 0⟩ = .ok path ∧
        List.Chain (Step 2 lopsidedMaze) ⟨0, 0⟩ path ∧ ((⟨0, 0⟩ : Vector2i) :: path).Nodup ∧
        (path ≠ [] → path.getLast? = some (goalOf 2)) ∧
        (WallsSymmetric 2 lopsidedMaze →
          List.Chain (OpenBothWays 2 lopsidedMaze) ⟨0, 0⟩ path) :=
  ⟨by decide, by decide,
    findPath_is_simple_walk 2 lopsidedMaze ⟨0, 0⟩ (by decide) (by decide)⟩

/-- C4 as stated fails: on the `2 × 2` grid `lopsidedMaze` the path returned from
`(0,0)` starts with the move to `(1,0)`, although the flag `maze[0][1].walls[3]` is
`true`: the cell `(1,0)` has a wall standing on the side facing `(0,0)`. -/
theorem findPath_crosses_one_sided_wall :
    IsGrid 2 lopsidedMaze ∧ InBounds 2 ⟨0, 0⟩ ∧
      findPath 2 lopsidedMaze ⟨0, 0⟩ = .ok [⟨1, 0⟩, ⟨1, 1⟩] ∧
      (readAt lopsidedMaze 0 1).bind (fun c => c.walls 3) = .ok true ∧
      ¬ OpenBothWays 2 lopsidedMaze ⟨0, 0⟩ ⟨1, 0⟩ :=
  ⟨by decide, by decide, by decide!, by decide!, by decide⟩

/-- Every generated grid is an `n × n` grid with a connected passage graph. -/
theorem generateMaze_connected {n : Int} (hn : 1 ≤ n) (rng : Nat → Nat) :
    ∃ maze, generateMaze n rng = .ok maze ∧ IsGrid n maze ∧ Connected n maze := by
  obtain ⟨s, hs, inv, he⟩ := carveMaze_spec hn rng
  exact ⟨resetVisited s.maze, generateMaze_eq hs, isGrid_resetVisited inv.grid,
    connected_resetVisited (connected_of_genInv inv he)⟩

/-- C5, as the code has it: for every size `n ≥ 2` and every stream of random choices,
`findPath` on the generated grid with start `(0,0)` returns a non-empty path. -/
theorem findPath_nonempty_on_generated (n : Int) (hn : 2 ≤ n) (rng : Nat → Nat) :
    ∃ maze path, generateMaze n rng = .ok maze ∧ findPath n maze ⟨0, 0⟩ = .ok path ∧
      path ≠ [] := by
  obtain ⟨maze, hgen, hg, hconn⟩ := generateMaze_connected (n := n) (by omega) rng
  have hs : InBounds n ⟨0, 0⟩ := ⟨le_refl _, by simp only; omega, le_refl _, by simp only; omega⟩
  have hgo : InBounds n (goalOf n) := by
    simp only [goalOf, InBounds]; omega
  obtain ⟨path, hp, -, hcase⟩ := findPath_spec hg hs
  refine ⟨maze, path, hgen, hp, ?_⟩
  have hne : (⟨0, 0⟩ : Vector2i) ≠ goalOf n := by
    intro h
    simp only [goalOf, Vector2i.mk.injEq] at h
    omega
  rcases hcase with ⟨-, hiff, -⟩ | ⟨hun, -⟩
  · exact fun h => hne (hiff.1 h)
  · exfalso
    apply hun
    exact Relation.ReflTransGen.mono (fun a b h => step_of_openBothWays h)
      (hconn _ _ hs hgo)

theorem findPath_nonempty_on_generated_witness :
    (2 : Int) ≤ 2 ∧ ∃ maze path, generateMaze 2 (fun _ => 0) = .ok maze ∧
      findPath 2 maze ⟨0, 0⟩ = .ok path ∧ path ≠ [] :=
  ⟨by decide, findPath_nonempty_on_generated 2 (by decide) (fun _ => 0)⟩

/-- C5 as stated fails at size 1: the generated grid is a single cell, the start `(0,0)`
is the goal, and `findPath` returns the empty path. -/
theorem findPath_empty_on_size_one :
    ∃ maze, generateMaze 1 (fun _ => 0) = .ok maze ∧ findPath 1 maze ⟨0, 0⟩ = .ok [] :=
  ⟨[[{}]], by decide!, by decide!⟩

/-- C6: on every `n × n` grid of wall flags and from every in-bounds start, `findPath`
returns without a fault, and the path it returns is empty exactly when the start is the
goal `(n-1, n-1)` or the goal cannot be reached from the start by steps through
directions in which the current cell has no wall. -/
theorem findPath_empty_iff (n : Int) (maze : List (List Cell)) (start : Vector2i)
    (hm : IsGrid n maze) (hs : InBounds n start) :
    ∃ path, findPath n maze start = .ok path ∧
      (path = [] ↔ start = goalOf n ∨ ¬ Reachable n maze start (goalOf n)) := by
  obtain ⟨path, hp, -, hcase⟩ := findPath_spec hm hs
  refine ⟨path, hp, ?_⟩
  rcases hcase with ⟨hw, hiff, -⟩ | ⟨hun, he⟩
  · constructor
    · intro h; exact Or.inl (hiff.1 h)
    · rintro (h | h)
      · exact hiff.2 h
      · exact absurd (reachable_of_reach (reach_of_walk path start hw)) h
  · exact ⟨fun _ => Or.inr hun, fun _ => he⟩

theorem findPath_empty_iff_witness :
    IsGrid 2 walledMaze ∧ InBounds 2 ⟨1, 0⟩ ∧
      ∃ path, findPath 2 walledMaze ⟨1, 0⟩ = .ok path ∧
        (path = [] ↔ (⟨1, 0⟩ : Vector2i) = goalOf 2 ∨
          ¬ Reachable 2 walledMaze ⟨1, 0⟩ (goalOf 2)) :=
  ⟨by decide, by decide, findPath_empty_iff 2 walledMaze ⟨1, 0⟩ (by decide) (by decide)⟩

/-- C7, as the code has it: `generateMaze` checks nothing about its size. The sizes that
`handleEvents` passes to it are those of `difficultySize`, namely 15, 20 and 25, and for
each of them a grid is returned. For every size `< 0` an error is signalled instead of a
grid, before any cell is accessed: the length error thrown by the construction of the
vector, which is the first thing the function does. -/
theorem generateMaze_unchecked_size :
    (∀ i, (difficultySize i = 15 ∨ difficultySize i = 20 ∨ difficultySize i = 25) ∧
        ∀ rng : Nat → Nat, ∃ maze, generateMaze (difficultySize i) rng = .ok maze) ∧
      ∀ (size : Int), size < 0 → ∀ rng : Nat → Nat,
        newGrid size ({} : Cell) = .error Fault.lengthError ∧
          generateMaze size rng = .error Fault.lengthError := by
  constructor
  · intro i
    have hsize : difficultySize i = 15 ∨ difficultySize i = 20 ∨ difficultySize i = 25 := by
      unfold difficultySize
      split
      · exact Or.inl rfl
      · split
        · exact Or.inr (Or.inl rfl)
        · exact Or.inr (Or.inr rfl)
    refine ⟨hsize, fun rng => ?_⟩
    obtain ⟨maze, h, -⟩ := generateMaze_connected (n := difficultySize i) (by omega) rng
    exact ⟨maze, h⟩
  · intro size hsize rng
    have hnew : newGrid size ({} : Cell) = .error Fault.lengthError := by
      unfold newGrid
      rw [if_pos hsize]
    refine ⟨hnew, ?_⟩
    unfold generateMaze carveMaze
    simp only [hnew, bind, Except.bind]

theorem generateMaze_unchecked_size_witness :
    (-3 : Int) < 0 ∧ newGrid (-3) ({} : Cell) = .error Fault.lengthError ∧
      generateMaze (-3) (fun _ => 0) = .error Fault.lengthError :=
  ⟨by decide, generateMaze_unchecked_size.2 (-3) (by decide) (fun _ => 0)⟩

/-- C7 as stated fails at size 0. Nothing is validated and no error is signalled: the
resize of lines 75-76 succeeds and leaves the empty grid, and line 84 then writes cell
`(0,0)`, an index outside that grid. The run of `generateMaze` reaches this out-of-range
access, which is undefined behaviour in the source; what the program does after it is
not described. -/
theorem generateMaze_zero_reaches_cell_access :
    newGrid 0 ({} : Cell) = .ok [] ∧
      modifyAt ([] : List (List Cell)) 0 0 (fun c => { c with visited := true }) =
        .error Fault.outOfRange ∧
      generateMaze 0 (fun _ => 0) = .error Fault.outOfRange :=
  ⟨by decide!, by decide!, by decide!⟩

/-- C8: for every size `n ≥ 1` and every stream of random choices the carving loop ends
with an empty stack, and at that moment every one of the `n * n` cells has its `visited`
flag set and occurs exactly once among the cells that were marked and pushed as new. -/
theorem carveMaze_visits_each_cell_once (n : Int) (hn : 1 ≤ n) (rng : Nat → Nat) :
    ∃ s, carveMaze n rng = .ok s ∧ s.stack = [] ∧
      (∀ p, InBounds n p → ∃ c, readAt s.maze p.y p.x = .ok c ∧ c.visited = true) ∧
      (∀ p, InBounds n p → s.marked.count p = 1) ∧
      (∀ p ∈ s.marked, InBounds n p) ∧ s.marked.length = n.toNat * n.toNat := by
  obtain ⟨s, hs, inv, he⟩ := carveMaze_spec hn rng
  have hall := inv.all_marked he
  refine ⟨s, hs, he, ?_, ?_, inv.marked_inb,
    length_eq_of_marked inv.nodup inv.marked_inb hall⟩
  · intro p hp
    exact ⟨cellAt s.maze p, cellAt_of_inBounds inv.grid hp, (inv.marked_iff p hp).2 (hall p hp)⟩
  · intro p hp
    exact List.count_eq_one_of_mem inv.nodup (hall p hp)

theorem carveMaze_visits_each_cell_once_witness :
    (1 : Int) ≤ 2 ∧ ∃ s, carveMaze 2 (fun k => k) = .ok s ∧ s.stack = [] ∧
      (∀ p, InBounds 2 p → ∃ c, readAt s.maze p.y p.x = .ok c ∧ c.visited = true) ∧
      (∀ p, InBounds 2 p → s.marked.count p = 1) ∧
      (∀ p ∈ s.marked, InBounds 2 p) ∧ s.marked.length = (2 : Int).toNat * (2 : Int).toNat :=
  ⟨by decide, carveMaze_visits_each_cell_once 2 (by decide) (fun k => k)⟩

/-- C9: for every loop state and every stream of random choices, one iteration of the
loop body of `generateMaze` (pop unconditionally, push back when there is an unvisited
neighbour) gives the same result as the step of the specification (peek, then pop only
at a dead end): the same grid, the same stack, or the same fault. -/
theorem loopBody_eq_peekStep (mazeSize : Int) (rng : Nat → Nat) (s : GenState) :
    loopBody mazeSize rng s = peekStep mazeSize rng s := by
  obtain ⟨maze, stack, drawn, marked⟩ := s
  unfold loopBody peekStep
  cases stack with
  | nil => rfl
  | cons current rest =>
    simp only
    cases collectDirections mazeSize maze current with
    | error e => rfl
    | ok directions =>
      cases directions with
      | nil => rfl
      | cons d ds => rfl

/-- C10: in every grid returned by `generateMaze` (any `n ≥ 1`, any random choices) the
walls on the outer boundary stand: `walls[0]` in row 0, `walls[1]` in column `n-1`,
`walls[2]` in row `n-1`, `walls[3]` in column 0. So a key press moves an in-bounds
player to an in-bounds cell without a fault, and after any sequence of key presses
following generation the player position is in bounds, as `findPath` requires. -/
theorem generateMaze_keeps_player_in_bounds (n : Int) (hn : 1 ≤ n) (rng : Nat → Nat) :
    ∃ maze, generateMaze n rng = .ok maze ∧ IsGrid n maze ∧
      (∀ (p : Vector2i) (c : Cell), readAt maze p.y p.x = .ok c →
        (p.y = 0 → c.walls0 = true) ∧ (p.x = n - 1 → c.walls1 = true) ∧
          (p.y = n - 1 → c.walls2 = true) ∧ (p.x = 0 → c.walls3 = true)) ∧
      (∀ (g : PlayState) (key : Key), InBounds n g.playerPos →
        ∃ g1, keyPressed n maze g key = .ok g1 ∧ InBounds n g1.playerPos) ∧
      (∀ keys : List Key, ∃ g1,
        keysPressed n maze ⟨GameState.PLAYING, ⟨0, 0⟩⟩ keys = .ok g1 ∧
          InBounds n g1.playerPos) := by
  obtain ⟨s, hs, inv, -⟩ := carveMaze_spec hn rng
  refine ⟨resetVisited s.maze, generateMaze_eq hs, isGrid_resetVisited inv.grid,
    boundary_of_genInv inv,
    fun g key hp => keyPressed_spec inv g hp key, fun keys => ?_⟩
  apply keysPressed_spec inv keys
  exact ⟨le_refl _, by simp only; omega, le_refl _, by simp only; omega⟩

theorem generateMaze_keeps_player_in_bounds_witness :
    (1 : Int) ≤ 2 ∧ ∃ maze, generateMaze 2 (fun k => k) = .ok maze ∧ IsGrid 2 maze ∧
      (∀ (p : Vector2i) (c : Cell), readAt maze p.y p.x = .ok c →
        (p.y = 0 → c.walls0 = true) ∧ (p.x = 2 - 1 → c.walls1 = true) ∧
          (p.y = 2 - 1 → c.walls2 = true) ∧ (p.x = 0 → c.walls3 = true)) ∧
      (∀ (g : PlayState) (key : Key), InBounds 2 g.playerPos →
        ∃ g1, keyPressed 2 maze g key = .ok g1 ∧ InBounds 2 g1.playerPos) ∧
      (∀ keys : List Key, ∃ g1,
        keysPressed 2 maze ⟨GameState.PLAYING, ⟨0, 0⟩⟩ keys = .ok g1 ∧
          InBounds 2 g1.playerPos) :=
  ⟨by decide, generateMaze_keeps_player_in_bounds 2 (by decide) (fun k => k)⟩

/-! ## Further properties -/

/-- Size 1: whatever the random choices, `generateMaze` returns the grid of one cell with
all four walls standing and `visited` cleared. -/
theorem generateMaze_size_one (rng : Nat → Nat) : generateMaze 1 rng = .ok [[{}]] := by
  rfl

/-- Hints in play: on the grid generated for any size `n ≥ 1` and any random choices, and
from any in-bounds player position, `findPath` returns a path to the goal whose length is
the shortest-path distance, which crosses no wall on either side, and which is empty only
when the player stands on the goal. -/
theorem findPath_on_generated (n : Int) (hn : 1 ≤ n) (rng : Nat → Nat) (start : Vector2i)
    (hs : InBounds n start) :
    ∃ maze path, generateMaze n rng = .ok maze ∧ findPath n maze start = .ok path ∧
      List.Chain (OpenBothWays n maze) start path ∧ (path = [] ↔ start = goalOf n) ∧
      IsDistance n maze start (goalOf n) path.length := by
  obtain ⟨s, hgen, inv, he⟩ := carveMaze_spec hn rng
  have hg := isGrid_resetVisited inv.grid
  have hconn := connected_resetVisited (connected_of_genInv inv he)
  have hsym := wallsSymmetric_of_genInv inv
  have hgo : InBounds n (goalOf n) := by
    simp only [goalOf, InBounds]; omega
  obtain ⟨path, hp, -, hcase⟩ := findPath_spec hg hs
  refine ⟨_, path, generateMaze_eq hgen, hp, ?_⟩
  rcases hcase with ⟨hw, hiff, hmin⟩ | ⟨hun, -⟩
  · exact ⟨List.Chain.imp (fun a b h => step_symmetric_open hsym h) hw.1, hiff,
      ⟨path, hw, rfl⟩, hmin⟩
  · exfalso
    apply hun
    exact Relation.ReflTransGen.mono (fun a b h => step_of_openBothWays h)
      (hconn _ _ hs hgo)

theorem findPath_on_generated_witness :
    (1 : Int) ≤ 3 ∧ InBounds 3 ⟨1, 2⟩ ∧
      ∃ maze path, generateMaze 3 (fun k => k) = .ok maze ∧
        findPath 3 maze ⟨1, 2⟩ = .ok path ∧
        List.Chain (OpenBothWays 3 maze) ⟨1, 2⟩ path ∧
        (path = [] ↔ (⟨1, 2⟩ : Vector2i) = goalOf 3) ∧
        IsDistance 3 maze ⟨1, 2⟩ (goalOf 3) path.length :=
  ⟨by decide, by decide, findPath_on_generated 3 (by decide) (fun k => k) ⟨1, 2⟩ (by decide)⟩

end MazeShift
